import Mathlib

/-!
# ThreadPool and atomic primitives of `Src/MyMiscellany.h`

A shallow embedding of `ThreadPool::Parallel_for`, `ThreadPool::Init`, the worker
loops, `SetAtomic` and `AddAtomic`, followed by the properties established about them.

Conventions.  `size_t` is a natural number below `SIZE = 2^64` and `unsigned int` one
below `UINT = 2^32`; every arithmetic operation of the source on these types is reduced
modulo the width.  A loop is a recursive function on a fuel argument and answers `none`
when the fuel is used up; undefined behaviour (division by zero) also answers `none`.
A call `iterationFunction( thread , i )` is recorded as the pair `(thread, i)`.
The embedding follows the build without `_OPENMP`, in which `ParallelType` has the three
values `THREAD_POOL`, `ASYNC` and `NONE`.
-/

namespace ThreadPool

/-- Number of values of the 64-bit type `size_t`. -/
def SIZE : Nat := 2 ^ 64

/-- Number of values of the 32-bit type `unsigned int`. -/
def UINT : Nat := 2 ^ 32

/-- One call `iterationFunction( thread , i )`, recorded as `(thread, i)`. -/
abbrev Call := Nat × Nat

inductive ParallelType where
  | THREAD_POOL
  | ASYNC
  | NONE
deriving DecidableEq, Repr

inductive ScheduleType where
  | STATIC
  | DYNAMIC
deriving DecidableEq, Repr

/-- The loop `for( size_t x=x0 ; x<bound ; x+=step ) body( x )`: the calls made, in
order, or `none` when the fuel runs out (or the body fails). -/
def forLoop (body : Nat → Option (List Call)) (bound step : Nat) : Nat → Nat → Option (List Call)
  | 0, _ => none
  | fuel + 1, x =>
    if x < bound then
      match body x, forLoop body bound step fuel ((x + step) % SIZE) with
      | some a, some b => some (a ++ b)
      | _, _ => none
    else some []

/-- The local `chunks` of `Parallel_for`: `( range + chunkSize - 1 ) / chunkSize` in
`size_t` arithmetic; division by zero is undefined behaviour. -/
def chunks (range chunkSize : Nat) : Option Nat :=
  if chunkSize = 0 then none
  else some (((range + chunkSize) % SIZE + SIZE - 1) % SIZE / chunkSize)

/-- The lambda `_ChunkFunction( thread , chunk )` of `Parallel_for`. -/
def ChunkFunction (fuel begin end_ chunkSize thread chunk : Nat) : Option (List Call) :=
  let _begin := (begin + chunkSize * chunk % SIZE) % SIZE
  let _end := min end_ ((_begin + chunkSize) % SIZE)
  forLoop (fun i => some [(thread, i)]) _end 1 fuel _begin

/-- The lambda `_StaticThreadFunction( thread )` of `Parallel_for`:
`for( size_t chunk=thread ; chunk<chunks ; chunk+=threads ) _ChunkFunction( thread , chunk )`. -/
def StaticThreadFunction (fuel begin end_ chunkSize chunks threads thread : Nat) :
    Option (List Call) :=
  forLoop (fun chunk => ChunkFunction fuel begin end_ chunkSize thread chunk) chunks threads fuel thread

/-! ## `SetAtomic` -/

/-- `SetAtomic32( value , newValue , oldValue )` as one atomic step on the 32-bit cell
`mem`: the result and the cell afterwards.  Values are bit patterns. -/
def SetAtomic32 (mem newValue oldValue : Nat) : Bool × Nat :=
  if mem = oldValue then (true, newValue) else (false, mem)

/-- `SetAtomic64( value , newValue , oldValue )` as one atomic step on the 64-bit cell. -/
def SetAtomic64 (mem newValue oldValue : Nat) : Bool × Nat :=
  if mem = oldValue then (true, newValue) else (false, mem)

/-- `SetAtomic( value , newValue , oldValue )` for a type of `width = sizeof(Value)`
bytes, as one atomic step; the default branch is the body run under `setAtomicMutex`. -/
def SetAtomic (width mem newValue oldValue : Nat) : Bool × Nat :=
  match width with
  | 4 => SetAtomic32 mem newValue oldValue
  | 8 => SetAtomic64 mem newValue oldValue
  | _ => if mem = oldValue then (true, newValue) else (false, mem)

/-! ## The static members of `ThreadPool` -/

/-- The closure stored in `_ThreadFunction`: the schedule chosen and the values the
lambdas of `Parallel_for` capture (`iterationFunction` is the identity of the callback). -/
structure Job where
  schedule : ScheduleType
  iterationFunction : Nat
  begin : Nat
  end_ : Nat
  chunkSize : Nat
  chunks : Nat
  threads : Nat
deriving DecidableEq, Repr

/-- The static members of `ThreadPool`.  An entry `some t` of `_Threads` is a running
thread started as `_ThreadInitFunction( t )`; `none` is a thread object that is not
joinable (default-constructed by `resize`, or joined). -/
structure Pool where
  _Close : Bool
  _RemainingTasks : Nat
  _Threads : List (Option Nat)
  _ThreadFunction : Option Job
  _ParallelType : ParallelType
deriving DecidableEq, Repr

/-- The zero-initialised static members at program start. -/
def Pool.start : Pool :=
  { _Close := false, _RemainingTasks := 0, _Threads := [], _ThreadFunction := none,
    _ParallelType := ParallelType.THREAD_POOL }

/-- `NumThreads()`: `(unsigned int)_Threads.size()+1`. -/
def NumThreads (p : Pool) : Nat := (p._Threads.length % UINT + 1) % UINT

/-- `std::vector::resize` on the vector of thread objects. -/
def resize (ts : List (Option Nat)) (n : Nat) : List (Option Nat) :=
  ts.take n ++ List.replicate (n - ts.length) none

/-- `Init( parallelType , numThreads )`. -/
def Init (p : Pool) (parallelType : ParallelType) (numThreads : Nat) : Pool :=
  let joined := if p._Threads.length ≠ 0 ∧ p._Close = false
    then p._Threads.map (fun _ => none) else p._Threads
  let numThreads := (numThreads + UINT - 1) % UINT
  let ts := resize joined numThreads
  if parallelType = ParallelType.THREAD_POOL then
    { _Close := false, _RemainingTasks := 0, _Threads := (List.range ts.length).map some,
      _ThreadFunction := p._ThreadFunction, _ParallelType := parallelType }
  else
    { _Close := true, _RemainingTasks := p._RemainingTasks, _Threads := ts,
      _ThreadFunction := p._ThreadFunction, _ParallelType := parallelType }

/-- `Terminate()`. -/
def Terminate (p : Pool) : Pool :=
  if p._Threads.length ≠ 0 ∧ p._Close = false then
    { p with _Close := true, _Threads := [] }
  else p

/-- The thread ids of the running pool workers: the arguments their
`_ThreadInitFunction` was started with, which it passes to `_ThreadFunction`. -/
def workers (p : Pool) : List Nat := p._Threads.filterMap id

/-! ## `Parallel_for` -/

/-- What one call of `Parallel_for` does on the invoking thread. -/
structure Outcome where
  /-- the static members after the writes of the invoking thread -/
  pool : Pool
  /-- the calls `iterationFunction( 0 , i )` made by the loops of `Parallel_for` itself -/
  calls : List Call
  /-- the ids `t` of the calls `_ThreadFunction( t )` made by the invoking thread -/
  inline : List Nat
  /-- the ids given to the `std::async` tasks, all awaited before the return -/
  async : List Nat
  /-- the ids of the pool workers woken by `notify_all` -/
  notified : List Nat
  /-- `WARN` was called -/
  warned : Bool
  /-- the call blocked on `_DoneWithWork` until `_RemainingTasks==0` -/
  waited : Bool
deriving DecidableEq, Repr

/-- An outcome with no activity at all. -/
def Outcome.idle (p : Pool) : Outcome :=
  { pool := p, calls := [], inline := [], async := [], notified := [], warned := false,
    waited := false }

/-- `Parallel_for( begin , end , iterationFunction , schedule , chunkSize )` on the
invoking thread. -/
def Parallel_for (fuel : Nat) (p : Pool) (begin end_ iterationFunction : Nat)
    (schedule : ScheduleType) (chunkSize : Nat) : Option Outcome :=
  if begin ≥ end_ then some (Outcome.idle p)
  else
    let range := end_ - begin
    match chunks range chunkSize with
    | none => none
    | some chunks =>
      let threads := NumThreads p
      if range < chunkSize ∨ p._ParallelType = ParallelType.NONE ∨ threads = 1 then
        (forLoop (fun i => some [(0, i)]) end_ 1 fuel begin).map
          fun cs => { Outcome.idle p with calls := cs }
      else
        let job : Job := { schedule := schedule, iterationFunction := iterationFunction,
                           begin := begin, end_ := end_, chunkSize := chunkSize,
                           chunks := chunks, threads := threads }
        let p1 : Pool := { p with _ThreadFunction := some job }
        match p._ParallelType with
        | ParallelType.ASYNC =>
          some { Outcome.idle p1 with async := List.range' 1 (threads - 1), inline := [0] }
        | ParallelType.THREAD_POOL =>
          match SetAtomic 4 p1._RemainingTasks ((threads + UINT - 1) % UINT) 0 with
          | (false, _) =>
            (forLoop (fun i => some [(0, i)]) end_ 1 fuel begin).map
              fun cs => { Outcome.idle p1 with calls := cs, warned := true }
          | (true, r) =>
            some { Outcome.idle { p1 with _RemainingTasks := r } with
                   notified := workers p1, waited := true }
        | ParallelType.NONE => some (Outcome.idle p1)

/-- The call `_ThreadFunction( thread )` for a job with the `STATIC` schedule.  With the
`DYNAMIC` schedule the calls of a thread depend on the interleaving with the other
threads, which `dynStep` describes, and no value is given here. -/
def ThreadFunction (fuel : Nat) (job : Job) (thread : Nat) : Option (List Call) :=
  match job.schedule with
  | ScheduleType.STATIC =>
    StaticThreadFunction fuel job.begin job.end_ job.chunkSize job.chunks job.threads thread
  | ScheduleType.DYNAMIC => none

/-- All results of a list of runs, or `none` when one of them did not finish. -/
def collect : List (Option (List Call)) → Option (List (List Call))
  | [] => some []
  | none :: _ => none
  | some x :: rest => (collect rest).map (x :: ·)

/-- The calls made before `Parallel_for` returns when the job has the static schedule,
thread by thread: first those of the loops of `Parallel_for` itself, then those of each
thread that runs `_ThreadFunction` (inline, as a task, or as a notified worker). -/
def threadCalls (fuel : Nat) (o : Outcome) : Option (List (List Call)) :=
  match o.pool._ThreadFunction with
  | none => some [o.calls]
  | some job =>
    (collect ((o.inline ++ o.async ++ o.notified).map (ThreadFunction fuel job))).map
      fun ts => o.calls :: ts

/-- How many times index `i` is passed to the iteration function. -/
def hits (i : Nat) (ts : List (List Call)) : Nat :=
  (ts.flatten.filter (fun c => c.2 = i)).length

/-- The calls the chunk bounds `[begin+c*chunkSize, min(end, begin+(c+1)*chunkSize))`
stand for: every index of that interval once, increasing, on thread `thread`. -/
def chunkCalls (begin end_ chunkSize thread c : Nat) : List Call :=
  (List.range' (begin + c * chunkSize)
    (min end_ (begin + (c + 1) * chunkSize) - (begin + c * chunkSize))).map
    fun i => (thread, i)

/-- The calls `(thread, begin), (thread, begin+1), ..., (thread, end-1)`. -/
def rangeCalls (begin end_ thread : Nat) : List Call :=
  (List.range' begin (end_ - begin)).map fun i => (thread, i)

/-- The fixed round-robin share of thread `t`: the chunk indices
`t, t+threads, t+2*threads, ...` below `chunks`, in this order. -/
def roundRobin (chunks threads t : Nat) : List Nat :=
  List.range' t ((chunks - t + threads - 1) / threads) threads

/-! ## Races on `SetAtomic` -/

/-- The calls `SetAtomic( addr , newValue , oldValue )` of the threads `order`, one
after the other as atomic steps, starting from the cell `mem`: the result each thread
gets, and the cell at the end. -/
def casRace (width newValue oldValue : Nat) : List Nat → Nat → List (Nat × Bool) × Nat
  | [], mem => ([], mem)
  | t :: order, mem =>
    let r := SetAtomic width mem newValue oldValue
    let rest := casRace width newValue oldValue order r.2
    ((t, r.1) :: rest.1, rest.2)

/-! ## The dynamic schedule -/

/-- The state of a job with the dynamic schedule that the threads `0, ..., w-1` run. -/
structure DynState where
  /-- the shared cursor `std::atomic< size_t > index` -/
  index : Nat
  /-- for each thread, whether it has left the loop of `_DynamicThreadFunction` -/
  stopped : List Bool
  /-- the pairs `(thread, chunk)` of the calls `_ChunkFunction( thread , chunk )`, in
  the order of the `fetch_add`s that claimed them -/
  claimed : List (Nat × Nat)
deriving DecidableEq, Repr

/-- The state when `Parallel_for` has stored `0` in `index` and no thread has started. -/
def DynState.init (w : Nat) : DynState :=
  { index := 0, stopped := List.replicate w false, claimed := [] }

/-- One iteration of
`while( ( chunk=index.fetch_add(1) )<chunks ) _ChunkFunction( thread , chunk )` by thread
`t`: the atomic `fetch_add` and, when the chunk is below `chunks`, the run of the chunk
(which touches no state of the scheduler); the thread leaves the loop otherwise. -/
def dynStep (chunks : Nat) (s : DynState) (t : Nat) : Option DynState :=
  if s.stopped[t]? = some false then
    let chunk := s.index
    let index := (s.index + 1) % SIZE
    if chunk < chunks then
      some { index := index, stopped := s.stopped, claimed := s.claimed ++ [(t, chunk)] }
    else
      some { index := index, stopped := s.stopped.set t true, claimed := s.claimed }
  else none

/-- The states a dynamic job of `chunks` chunks run by `w` threads can be in, under
every interleaving of the iterations of the threads. -/
inductive DynReachable (chunks w : Nat) : DynState → Prop
  | init : DynReachable chunks w (DynState.init w)
  | step (s : DynState) (t : Nat) (s' : DynState) :
      DynReachable chunks w s → dynStep chunks s t = some s' → DynReachable chunks w s'

/-- The interleaving in which the threads take their iterations in the order `order`. -/
def dynRun (chunks : Nat) : List Nat → DynState → Option DynState
  | [], s => some s
  | t :: order, s =>
    match dynStep chunks s t with
    | some s' => dynRun chunks order s'
    | none => none

/-- Every thread has left its loop. -/
def DynState.finished (s : DynState) : Prop := ∀ b, b ∈ s.stopped → b = true

/-- The calls of the iteration function made by the chunks claimed so far. -/
def dynCalls (fuel begin end_ chunkSize : Nat) (s : DynState) : Option (List (List Call)) :=
  collect (s.claimed.map fun tc => ChunkFunction fuel begin end_ chunkSize tc.1 tc.2)

/-- The invariant of the dynamic schedule while the cursor cannot wrap. -/
def DynInv (chunks w : Nat) (s : DynState) : Prop :=
  s.stopped.length = w
  ∧ s.claimed.map Prod.snd = List.range s.claimed.length
  ∧ s.claimed.length ≤ chunks
  ∧ s.index = (s.claimed.length + s.stopped.count true) % SIZE
  ∧ (0 < s.stopped.count true → s.claimed.length = chunks)
  ∧ ∀ tc, tc ∈ s.claimed → tc.1 < w

/-! ## `AddAtomic32` and `AddAtomic64` -/

/-- The sum `x + b` in an integer type of `width` bytes. -/
def wrapAdd (width : Nat) (x : Nat) (b : Int) : Nat :=
  (((x : Int) + b) % ((2 ^ (8 * width) : Nat) : Int)).toNat

/-- Where a thread stands inside `AddAtomic32` / `AddAtomic64`. -/
inductive AddPc where
  /-- not inside a call -/
  | idle
  /-- `current` and `sum` are set; the compare-and-swap of the loop condition is next -/
  | cas (b : Int) (current sum : Nat)
  /-- the compare-and-swap failed; `current = a` is next -/
  | rereadCurrent (b : Int)
  /-- `current = a` is done; `sum = a+b` is next -/
  | rereadSum (b : Int) (current : Nat)
deriving DecidableEq, Repr

/-- A thread: where it stands, and the deltas of the calls `AddAtomic( a , b )` it has
still to make. -/
structure AddThread where
  pc : AddPc
  todo : List Int
deriving DecidableEq, Repr

/-- The shared cell `a` and the threads that add to it. -/
structure AddState where
  a : Nat
  threads : List AddThread
deriving DecidableEq, Repr

/-- The next shared-memory access of thread `t` in
`Number current = a; Number sum = current+b;
 while( !SetAtomic( &a , sum , current ) ) current = a , sum = a+b;`
for `width` 4 or 8 (`AddAtomic32` spells the same compare-and-swap with
`__sync_val_compare_and_swap`).  The cell is volatile: each mention of `a` is one read. -/
def addStep (width : Nat) (s : AddState) (t : Nat) : Option AddState :=
  match s.threads[t]? with
  | none => none
  | some th =>
    match th.pc, th.todo with
    | AddPc.idle, [] => none
    | AddPc.idle, b :: rest =>
      some { s with threads := s.threads.set t ⟨AddPc.cas b s.a (wrapAdd width s.a b), rest⟩ }
    | AddPc.cas b current sum, todo =>
      match SetAtomic width s.a sum current with
      | (true, a') => some { a := a', threads := s.threads.set t ⟨AddPc.idle, todo⟩ }
      | (false, _) => some { s with threads := s.threads.set t ⟨AddPc.rereadCurrent b, todo⟩ }
    | AddPc.rereadCurrent b, todo =>
      some { s with threads := s.threads.set t ⟨AddPc.rereadSum b s.a, todo⟩ }
    | AddPc.rereadSum b current, todo =>
      some { s with threads := s.threads.set t ⟨AddPc.cas b current (wrapAdd width s.a b), todo⟩ }

/-- The interleaving in which the threads make their accesses in the order `order`. -/
def addRun (width : Nat) : List Nat → AddState → Option AddState
  | [], s => some s
  | t :: order, s =>
    match addStep width s t with
    | some s' => addRun width order s'
    | none => none

/-! ## The mutex fallback of `SetAtomic` and `AddAtomic` -/

/-- The function-local static mutexes of the fallback branches (for one value type). -/
inductive Mutex where
  /-- `static std::mutex setAtomicMutex` in the default branch of `SetAtomic` -/
  | setAtomicMutex
  /-- `static std::mutex addAtomicMutex` in the default branch of `AddAtomic` -/
  | addAtomicMutex
deriving DecidableEq, Repr

/-- The mutex a call of `SetAtomic` locks for a type of `width` bytes: none in the
branches `case 4` and `case 8`, `setAtomicMutex` in the default branch. -/
def SetAtomic_mutex (width : Nat) : Option Mutex :=
  match width with
  | 4 => none
  | 8 => none
  | _ => some Mutex.setAtomicMutex

/-- The mutex a call of `AddAtomic` locks for a type of `width` bytes: none in the
branches `case 4` and `case 8`, `addAtomicMutex` in the default branch. -/
def AddAtomic_mutex (width : Nat) : Option Mutex :=
  match width with
  | 4 => none
  | 8 => none
  | _ => some Mutex.addAtomicMutex

/-- A call of the fallback branch of `SetAtomic` or of `AddAtomic` on the shared cell. -/
inductive FbOp where
  | set (newValue oldValue : Nat)
  | add (b : Int)
deriving DecidableEq, Repr

/-- Where a thread stands inside a fallback branch. -/
inductive FbPc where
  /-- not inside a call -/
  | idle
  /-- `SetAtomic`: the lock is held, the test `*value==oldValue` is next -/
  | setTest (newValue oldValue : Nat)
  /-- `SetAtomic`: the test succeeded, the write `*value = newValue` is next -/
  | setWrite (newValue : Nat)
  /-- `SetAtomic`: the return, which releases the lock, is next -/
  | setReturn (result : Bool)
  /-- `AddAtomic`: the lock is held, the read of `a += b` is next -/
  | addRead (b : Int)
  /-- `AddAtomic`: the write of `a += b` is next -/
  | addWrite (sum : Nat)
  /-- `AddAtomic`: the return, which releases the lock, is next -/
  | addReturn
deriving DecidableEq, Repr

/-- The mutex a thread holds where it stands. -/
def FbPc.holds : FbPc → Option Mutex
  | FbPc.idle => none
  | FbPc.setTest _ _ => some Mutex.setAtomicMutex
  | FbPc.setWrite _ => some Mutex.setAtomicMutex
  | FbPc.setReturn _ => some Mutex.setAtomicMutex
  | FbPc.addRead _ => some Mutex.addAtomicMutex
  | FbPc.addWrite _ => some Mutex.addAtomicMutex
  | FbPc.addReturn => some Mutex.addAtomicMutex

/-- A thread: where it stands, the calls it has still to make, and the results of its
`SetAtomic` calls so far. -/
structure FbThread where
  pc : FbPc
  todo : List FbOp
  results : List Bool
deriving DecidableEq, Repr

/-- The shared cell, the owner of each mutex, and the threads. -/
structure FbState where
  value : Nat
  setAtomicMutex : Option Nat
  addAtomicMutex : Option Nat
  threads : List FbThread
deriving DecidableEq, Repr

/-- The thread that owns a mutex, if any. -/
def FbState.owner (s : FbState) : Mutex → Option Nat
  | Mutex.setAtomicMutex => s.setAtomicMutex
  | Mutex.addAtomicMutex => s.addAtomicMutex

/-- The state with a new owner of a mutex. -/
def FbState.setOwner (s : FbState) (m : Mutex) (o : Option Nat) : FbState :=
  match m with
  | Mutex.setAtomicMutex => { s with setAtomicMutex := o }
  | Mutex.addAtomicMutex => { s with addAtomicMutex := o }

/-- The state in which thread `t` has become `th`. -/
def FbState.setThread (s : FbState) (t : Nat) (th : FbThread) : FbState :=
  { s with threads := s.threads.set t th }

/-- The constructor of a `lock_guard` on `m` by thread `t`, which then stands at `pc`:
possible only when nobody owns `m`. -/
def FbState.lock (s : FbState) (m : Mutex) (t : Nat) (th : FbThread) : Option FbState :=
  if s.owner m = none then some ((s.setOwner m (some t)).setThread t th) else none

/-- The next step of thread `t` in the fallback branches, for a type of `width` bytes:
`if( *value==oldValue ){ *value = newValue ; return true; } else return false;` under
`setAtomicMutex`, and `a += b;` under `addAtomicMutex`. -/
def fbStep (width : Nat) (s : FbState) (t : Nat) : Option FbState :=
  match s.threads[t]? with
  | none => none
  | some th =>
    match th.pc, th.todo with
    | FbPc.idle, [] => none
    | FbPc.idle, FbOp.set newValue oldValue :: rest =>
      s.lock Mutex.setAtomicMutex t { th with pc := FbPc.setTest newValue oldValue, todo := rest }
    | FbPc.idle, FbOp.add b :: rest =>
      s.lock Mutex.addAtomicMutex t { th with pc := FbPc.addRead b, todo := rest }
    | FbPc.setTest newValue oldValue, _ =>
      if s.value = oldValue then some (s.setThread t { th with pc := FbPc.setWrite newValue })
      else some (s.setThread t { th with pc := FbPc.setReturn false })
    | FbPc.setWrite newValue, _ =>
      some ({ s with value := newValue }.setThread t { th with pc := FbPc.setReturn true })
    | FbPc.setReturn result, _ =>
      some ((s.setOwner Mutex.setAtomicMutex none).setThread t
        { th with pc := FbPc.idle, results := th.results ++ [result] })
    | FbPc.addRead b, _ =>
      some (s.setThread t { th with pc := FbPc.addWrite (wrapAdd width s.value b) })
    | FbPc.addWrite sum, _ =>
      some ({ s with value := sum }.setThread t { th with pc := FbPc.addReturn })
    | FbPc.addReturn, _ =>
      some ((s.setOwner Mutex.addAtomicMutex none).setThread t { th with pc := FbPc.idle })

/-- A start state: both mutexes free and every thread outside a call. -/
def FbState.initial (s : FbState) : Prop :=
  s.setAtomicMutex = none ∧ s.addAtomicMutex = none
  ∧ ∀ th, th ∈ s.threads → th.pc = FbPc.idle

/-- The states the threads can reach from `s0` under every interleaving. -/
inductive FbReachable (width : Nat) (s0 : FbState) : FbState → Prop
  | start : FbReachable width s0 s0
  | step (s : FbState) (t : Nat) (s' : FbState) :
      FbReachable width s0 s → fbStep width s t = some s' → FbReachable width s0 s'

/-- The interleaving in which the threads take their steps in the order `order`. -/
def fbRun (width : Nat) : List Nat → FbState → Option FbState
  | [], s => some s
  | t :: order, s =>
    match fbStep width s t with
    | some s' => fbRun width order s'
    | none => none

/-- Every thread that holds a mutex where it stands is the owner of that mutex. -/
def FbInv (s : FbState) : Prop :=
  ∀ u th m, s.threads[u]? = some th → th.pc.holds = some m → s.owner m = some u

/-! ## `ParallelSections` -/

/-- What `ParallelSections` does, step by step.  A closure is named by a number. -/
inductive SectionEvent where
  /-- `futures[slot] = std::async( std::launch::async , function )`: a new task is
  started, which calls `function` once -/
  | launch (slot function : Nat)
  /-- `futures[slot].get()`: wait until the task of that slot has finished -/
  | get (slot : Nat)
deriving DecidableEq, Repr

/-- The two overloads of `_ParallelSections( futures , function , functions ... )`; the
pointer `futures` is the index of the slot it points to.  No overload takes no
function. -/
def _ParallelSections (futures : Nat) : List Nat → List SectionEvent
  | [] => []
  | [function] => [SectionEvent.launch futures function]
  | function :: g :: functions =>
    SectionEvent.launch futures function :: _ParallelSections (futures + 1) (g :: functions)

/-- `ParallelSections( functions ... )`: the steps of the invoking thread, and the static
members afterwards.  A call without functions does not compile. -/
def ParallelSections (p : Pool) (functions : List Nat) : Option (List SectionEvent × Pool) :=
  match functions with
  | [] => none
  | _ :: _ =>
    some (_ParallelSections 0 functions
      ++ (List.range functions.length).map SectionEvent.get, p)

/-! ## The warning macros -/

/-- The macro `WARN( ... )`: one call of `MKExceptions::Warn` each time it is executed;
`sink` counts the messages written to `std::cerr`. -/
def WARN (sink : Nat) : Nat := sink + 1

/-- The macro `WARN_ONCE( ... )`:
`{ static bool firstTime = true ; if( firstTime ) MKExceptions::Warn( ... ) ; firstTime = false; }`
on the flag of its call site: the flag and the sink afterwards. -/
def WARN_ONCE (firstTime : Bool) (sink : Nat) : Bool × Nat :=
  (false, if firstTime then sink + 1 else sink)

/-- The arguments of one call of `Parallel_for`. -/
structure Args where
  begin : Nat
  end_ : Nat
  iterationFunction : Nat
  schedule : ScheduleType
  chunkSize : Nat
deriving DecidableEq, Repr

/-- Calls of `Parallel_for` one after the other, each on the static members the call
before it left, with no worker step in between: the static members and the number of
messages in the sink at the end. -/
def Parallel_for_seq (fuel : Nat) : List Args → Pool → Nat → Option (Pool × Nat)
  | [], p, sink => some (p, sink)
  | a :: rest, p, sink =>
    match Parallel_for fuel p a.begin a.end_ a.iterationFunction a.schedule a.chunkSize with
    | none => none
    | some o => Parallel_for_seq fuel rest o.pool (if o.warned then WARN sink else sink)

/-! ## Thread ids and the pool at work -/

/-- The thread ids with which `_ThreadFunction` is called for the job of an outcome: by
the invoking thread, by the `std::async` tasks and by the notified workers. -/
def runners (o : Outcome) : List Nat := o.inline ++ o.async ++ o.notified

/-- The states of the static members that `Init` with `1 ≤ numThreads` leaves, and that
`Terminate` and `Parallel_for` keep: `_Threads.size()+1` fits in an `unsigned int`, and
with the `THREAD_POOL` strategy the thread object in slot `t` runs
`_ThreadInitFunction( t )`. -/
def Pool.configured (p : Pool) : Prop :=
  p._Threads.length + 1 < UINT
  ∧ (p._ParallelType = ParallelType.THREAD_POOL →
      p._Threads = (List.range p._Threads.length).map some)

/-- The statement `_RemainingTasks--` of `_ThreadInitFunction`, made under `_Mutex` when
the worker has run `_ThreadFunction( thread )`. -/
def workerFinish (p : Pool) : Pool :=
  { p with _RemainingTasks := (p._RemainingTasks + UINT - 1) % UINT }

/-- The pool at work: the static members, and the ids of the workers that have been
woken for the current job and have not yet decremented `_RemainingTasks`; the other
workers are blocked in `_WaitingForWorkOrClose.wait`. -/
structure PoolRun where
  pool : Pool
  running : List Nat
deriving DecidableEq, Repr

/-- The states of the pool started by `Init( THREAD_POOL , n )`.  The steps are a call of
`Parallel_for` by any thread (when its guard succeeds, `notify_all` wakes every worker
that is blocked in the wait; otherwise no worker changes), and a running worker that has
finished its share and decrements the counter before it blocks again. -/
inductive PoolReachable (p0 : Pool) (n : Nat) : PoolRun → Prop
  | init : PoolReachable p0 n ⟨Init p0 ParallelType.THREAD_POOL n, []⟩
  | call (s : PoolRun) (fuel begin end_ f : Nat) (schedule : ScheduleType) (chunkSize : Nat)
      (o : Outcome) :
      PoolReachable p0 n s →
      Parallel_for fuel s.pool begin end_ f schedule chunkSize = some o →
      PoolReachable p0 n
        ⟨o.pool, if o.waited then s.running ++ o.notified.filter (fun t => t ∉ s.running)
                 else s.running⟩
  | finish (s : PoolRun) (t : Nat) :
      PoolReachable p0 n s → t ∈ s.running →
      PoolReachable p0 n ⟨workerFinish s.pool, s.running.erase t⟩

/-- The invariant of the pool at work: the strategy is `THREAD_POOL`, the thread objects
are the `n-1` workers with the ids `0, ..., n-2`, and the counter is the number of
workers still running, at most `n-1`. -/
def PoolInv (n : Nat) (s : PoolRun) : Prop :=
  s.pool._ParallelType = ParallelType.THREAD_POOL
  ∧ s.pool._Threads = (List.range (n - 1)).map some
  ∧ s.pool._RemainingTasks = s.running.length
  ∧ s.running.length ≤ n - 1

/-! ## Loop lemmas -/

/-- A loop with stride `step` that cannot wrap runs to its end and visits
`x, x+step, x+2*step, ...` below `bound`, in that order. -/
theorem forLoop_stride (body : Nat → Option (List Call)) (g : Nat → List Call)
    (bound step : Nat) (hs : 0 < step) (hb : bound + step ≤ SIZE)
    (hbody : ∀ x, x < bound → body x = some (g x)) :
    ∀ fuel x, bound - x < fuel →
      forLoop body bound step fuel x
        = some ((List.range' x ((bound - x + step - 1) / step) step).flatMap g) := by
  intro fuel
  induction fuel with
  | zero => intro x h; omega
  | succ fuel ih =>
    intro x h
    unfold forLoop
    by_cases hx : x < bound
    · have hmod : (x + step) % SIZE = x + step := Nat.mod_eq_of_lt (by omega)
      have hn : (bound - x + step - 1) / step = (bound - (x + step) + step - 1) / step + 1 := by
        by_cases hlt : bound < x + step
        · have h1 : bound - (x + step) + step - 1 = step - 1 := by omega
          have h2 : bound - x + step - 1 = (bound - x - 1) + step := by omega
          rw [h1, h2, Nat.add_div_right _ hs, Nat.div_eq_of_lt (by omega : step - 1 < step),
            Nat.div_eq_of_lt (by omega : bound - x - 1 < step)]
        · have h1 : bound - x + step - 1 = (bound - (x + step) + step - 1) + step := by omega
          rw [h1, Nat.add_div_right _ hs]
      rw [if_pos hx, hbody x hx, hmod, ih (x + step) (by omega), hn]
      simp [List.range'_succ]
    · have h0 : (bound - x + step - 1) / step = 0 := by
        have : bound - x + step - 1 = step - 1 := by omega
        rw [this]; exact Nat.div_eq_of_lt (by omega)
      rw [if_neg hx, h0]
      simp

/-- The loop `for( size_t i=x ; i<bound ; i++ ) iterationFunction( thread , i )` runs
to its end and calls `x, x+1, ..., bound-1` in this order. -/
theorem forLoop_seq (thread bound : Nat) (hb : bound < SIZE) (fuel x : Nat)
    (h : bound - x < fuel) :
    forLoop (fun i => some [(thread, i)]) bound 1 fuel x
      = some ((List.range' x (bound - x)).map fun i => (thread, i)) := by
  rw [forLoop_stride (fun i => some [(thread, i)]) (fun i => [(thread, i)]) bound 1
    Nat.one_pos (by omega) (fun _ _ => rfl) fuel x h]
  have : (bound - x + 1 - 1) / 1 = bound - x := by simp
  rw [this, List.map_eq_flatMap]

/-! ## Chunks -/

/-- Ceiling division as computed by `Parallel_for`, when `range + chunkSize - 1` fits. -/
theorem chunks_eq (range chunkSize : Nat) (hcs : 1 ≤ chunkSize)
    (h1 : range + chunkSize - 1 < SIZE) :
    chunks range chunkSize = some ((range + chunkSize - 1) / chunkSize) := by
  have hS : 0 < SIZE := by unfold SIZE; omega
  have hnum : ((range + chunkSize) % SIZE + SIZE - 1) % SIZE = range + chunkSize - 1 := by
    by_cases h : range + chunkSize = SIZE
    · rw [h, Nat.mod_self, Nat.zero_add, Nat.mod_eq_of_lt (by omega)]
    · rw [Nat.mod_eq_of_lt (by omega : range + chunkSize < SIZE)]
      have : range + chunkSize + SIZE - 1 = (range + chunkSize - 1) + SIZE := by omega
      rw [this, Nat.add_mod_right, Nat.mod_eq_of_lt h1]
  unfold chunks
  rw [if_neg (by omega), hnum]

/-- The chunk count times the chunk size covers the range, and no smaller count does. -/
theorem chunks_bounds (range chunkSize : Nat) (hcs : 1 ≤ chunkSize) :
    range ≤ chunkSize * ((range + chunkSize - 1) / chunkSize) ∧
    (1 ≤ range → chunkSize * ((range + chunkSize - 1) / chunkSize - 1) < range) := by
  have hpos : 0 < chunkSize := hcs
  have h1 := Nat.div_add_mod (range + chunkSize - 1) chunkSize
  have h2 := Nat.mod_lt (range + chunkSize - 1) hpos
  constructor
  · omega
  · intro hr
    have hq : 1 ≤ (range + chunkSize - 1) / chunkSize :=
      (Nat.one_le_div_iff hpos).mpr (by omega)
    have : chunkSize * ((range + chunkSize - 1) / chunkSize - 1)
        = chunkSize * ((range + chunkSize - 1) / chunkSize) - chunkSize := by
      rw [Nat.mul_sub, Nat.mul_one]
    have h3 : chunkSize ≤ chunkSize * ((range + chunkSize - 1) / chunkSize) :=
      Nat.le_mul_of_pos_right _ hq
    omega

/-- Below the chunk count, the start of a chunk lies inside the range. -/
theorem chunk_start_lt (range chunkSize c : Nat) (hcs : 1 ≤ chunkSize)
    (hc : c < (range + chunkSize - 1) / chunkSize) : chunkSize * c < range := by
  have h := (chunks_bounds range chunkSize hcs).2
  have hr : 1 ≤ range := by
    by_contra hr
    have : range + chunkSize - 1 < chunkSize := by omega
    rw [Nat.div_eq_of_lt this] at hc
    omega
  have hle : chunkSize * c ≤ chunkSize * ((range + chunkSize - 1) / chunkSize - 1) :=
    Nat.mul_le_mul_left _ (by omega)
  have := h hr
  omega

/-- A chunk whose bounds do not wrap is run through by `_ChunkFunction` and yields the
calls of its bounds. -/
theorem ChunkFunction_eq (fuel begin end_ chunkSize thread c : Nat)
    (hend : end_ < SIZE) (hfuel : chunkSize < fuel)
    (hnw : begin + chunkSize * c + chunkSize < SIZE) :
    ChunkFunction fuel begin end_ chunkSize thread c
      = some (chunkCalls begin end_ chunkSize thread c) := by
  have e1 : chunkSize * c % SIZE = chunkSize * c := Nat.mod_eq_of_lt (by omega)
  have e2 : (begin + chunkSize * c) % SIZE = begin + chunkSize * c :=
    Nat.mod_eq_of_lt (by omega)
  have e3 : (begin + chunkSize * c + chunkSize) % SIZE = begin + chunkSize * c + chunkSize :=
    Nat.mod_eq_of_lt hnw
  have e4 : begin + (c + 1) * chunkSize = begin + chunkSize * c + chunkSize := by ring
  have e5 : begin + c * chunkSize = begin + chunkSize * c := by ring
  unfold ChunkFunction chunkCalls
  simp only [e1, e2, e3, e4, e5]
  exact forLoop_seq thread _ (by omega) fuel _ (by omega)

/-- Two adjacent intervals of indices make one. -/
theorem range'_glue (a b c : Nat) (hab : a ≤ b) (hbc : b ≤ c) :
    List.range' a (b - a) ++ List.range' b (c - b) = List.range' a (c - a) := by
  have h := List.range'_append a (b - a) (c - b) 1
  rw [Nat.one_mul, Nat.add_sub_cancel' hab] at h
  rw [h]
  congr 1
  omega

/-- The chunks `0, ..., k-1` together are the first `k*chunkSize` indices of the range
(or the whole range, when that is shorter), in increasing order. -/
theorem chunkCalls_upto (begin end_ chunkSize thread : Nat) (k : Nat) :
    (List.range k).flatMap (chunkCalls begin end_ chunkSize thread)
      = rangeCalls begin (min end_ (begin + k * chunkSize)) thread := by
  induction k with
  | zero => simp [rangeCalls]
  | succ k ih =>
    rw [List.range_succ, List.flatMap_append, ih]
    simp only [List.flatMap_cons, List.flatMap_nil, List.append_nil]
    unfold rangeCalls chunkCalls
    rw [← List.map_append]
    congr 1
    by_cases h : begin + k * chunkSize ≤ end_
    · have hk : begin + k * chunkSize ≤ min end_ (begin + (k + 1) * chunkSize) := by
        rw [Nat.add_mul]; omega
      rw [Nat.min_eq_right h]
      exact range'_glue begin _ _ (by omega) hk
    · have h1 : min end_ (begin + (k + 1) * chunkSize) = end_ := by
        rw [Nat.add_mul]; omega
      have h2 : min end_ (begin + k * chunkSize) = end_ := by omega
      rw [h1, h2, Nat.sub_eq_zero_of_le (by omega : end_ ≤ begin + k * chunkSize)]
      simp

/-- When every run of a list finishes, `collect` gathers the results. -/
theorem collect_map {α : Type} (f : α → Option (List Call)) (g : α → List Call) :
    ∀ l : List α, (∀ x, x ∈ l → f x = some (g x)) → collect (l.map f) = some (l.map g) := by
  intro l
  induction l with
  | nil => intro _; rfl
  | cons a l ih =>
    intro h
    rw [List.map_cons, h a (List.mem_cons_self a l)]
    simp only [collect]
    rw [ih (fun x hx => h x (List.mem_cons_of_mem a hx))]
    rfl

/-- All chunks together are the whole range, in increasing order. -/
theorem chunkCalls_all (begin end_ chunkSize thread : Nat) (hcs : 1 ≤ chunkSize) :
    (List.range ((end_ - begin + chunkSize - 1) / chunkSize)).flatMap
        (chunkCalls begin end_ chunkSize thread)
      = rangeCalls begin end_ thread := by
  rw [chunkCalls_upto]
  have h := (chunks_bounds (end_ - begin) chunkSize hcs).1
  rw [Nat.mul_comm] at h
  by_cases hle : begin ≤ end_
  · rw [Nat.min_eq_left (by omega)]
  · unfold rangeCalls
    rw [Nat.sub_eq_zero_of_le (by omega : end_ ≤ begin),
      Nat.sub_eq_zero_of_le (Nat.le_trans (Nat.min_le_left _ _) (by omega))]

/-- An index of the range lies in chunk `c` exactly when `c = (i-begin)/chunkSize`. -/
theorem chunk_of_index (begin end_ chunkSize i c : Nat) (hcs : 1 ≤ chunkSize)
    (hi : begin ≤ i) (hie : i < end_) :
    (begin + c * chunkSize ≤ i ∧ i < min end_ (begin + (c + 1) * chunkSize))
      ↔ c = (i - begin) / chunkSize := by
  have hpos : 0 < chunkSize := hcs
  have hd := Nat.div_add_mod (i - begin) chunkSize
  have hm := Nat.mod_lt (i - begin) hpos
  constructor
  · rintro ⟨h1, h2⟩
    symm
    apply Nat.div_eq_of_lt_le
    · omega
    · have : i < begin + (c + 1) * chunkSize := lt_of_lt_of_le h2 (Nat.min_le_right _ _)
      show i - begin < (c + 1) * chunkSize
      omega
  · intro hc
    subst hc
    rw [Nat.add_mul, Nat.one_mul, Nat.mul_comm, lt_min_iff]
    omega

/-- The chunk of an index of the range is below the chunk count. -/
theorem chunk_of_index_lt (begin end_ chunkSize i : Nat) (hcs : 1 ≤ chunkSize)
    (hi : begin ≤ i) (hie : i < end_) :
    (i - begin) / chunkSize < (end_ - begin + chunkSize - 1) / chunkSize := by
  have h := (chunks_bounds (end_ - begin) chunkSize hcs).1
  rw [Nat.div_lt_iff_lt_mul hcs, Nat.mul_comm]
  omega

/-- The chunk count is the ceiling of `range / chunkSize`. -/
theorem chunks_ceil (range chunkSize : Nat) (hr : 1 ≤ range) (hcs : 1 ≤ chunkSize) :
    (range + chunkSize - 1) / chunkSize = ⌈(range : ℚ) / (chunkSize : ℚ)⌉₊ := by
  have hb := chunks_bounds range chunkSize hcs
  have hq : 1 ≤ (range + chunkSize - 1) / chunkSize :=
    (Nat.one_le_div_iff hcs).mpr (by omega)
  have hc : (0 : ℚ) < chunkSize := by exact_mod_cast hcs
  symm
  rw [Nat.ceil_eq_iff (by omega)]
  constructor
  · rw [lt_div_iff₀ hc]
    have := hb.2 hr
    rw [Nat.mul_comm] at this
    exact_mod_cast this
  · rw [div_le_iff₀ hc]
    have := hb.1
    rw [Nat.mul_comm] at this
    exact_mod_cast this

/-! ## C4: the chunks partition the range -/

/-- C4 (confirmed).  For `size_t` values `begin < end` and `chunkSize ≥ 1` without
64-bit overflow (`range + chunkSize - 1` and `begin + chunkSize*chunks` fit in 64 bits):
`chunks` is computed as `(end-begin+chunkSize-1)/chunkSize`, which is the ceiling of
`(end-begin)/chunkSize`; for every chunk `c` whose bound `begin+(c+1)*chunkSize` fits in
64 bits, `_ChunkFunction( thread , c )` runs to its end and calls exactly the indices
`begin+c*chunkSize ≤ i < min(end, begin+(c+1)*chunkSize)` in increasing order; for every
chunk `c < chunks` the bound fits and the interval is not empty; the calls of chunks `0, 1, ..., chunks-1` one after the other are
exactly `begin, begin+1, ..., end-1`; and an index `i` of the range lies in chunk `c`
exactly when `c = (i-begin)/chunkSize`, which is below `chunks`. -/
theorem C4_chunks_partition_range (begin end_ chunkSize : Nat)
    (hlt : begin < end_) (hend : end_ < SIZE) (hcs : 1 ≤ chunkSize)
    (h1 : end_ - begin + chunkSize - 1 < SIZE)
    (h2 : begin + chunkSize * ((end_ - begin + chunkSize - 1) / chunkSize) < SIZE) :
    ∃ n : Nat,
      chunks (end_ - begin) chunkSize = some n
      ∧ n = (end_ - begin + chunkSize - 1) / chunkSize
      ∧ n = ⌈((end_ - begin : ℕ) : ℚ) / (chunkSize : ℚ)⌉₊
      ∧ (∀ fuel thread c, chunkSize < fuel → begin + (c + 1) * chunkSize < SIZE →
          ChunkFunction fuel begin end_ chunkSize thread c
            = some ((List.range' (begin + c * chunkSize)
                (min end_ (begin + (c + 1) * chunkSize) - (begin + c * chunkSize))).map
                fun i => (thread, i)))
      ∧ (∀ c, c < n →
          begin + (c + 1) * chunkSize < SIZE
          ∧ begin + c * chunkSize < min end_ (begin + (c + 1) * chunkSize))
      ∧ (∀ fuel thread, chunkSize < fuel →
          (collect ((List.range n).map (ChunkFunction fuel begin end_ chunkSize thread))).map
              List.flatten
            = some ((List.range' begin (end_ - begin)).map fun i => (thread, i)))
      ∧ (∀ i, begin ≤ i → i < end_ →
          (i - begin) / chunkSize < n
          ∧ ∀ c, (begin + c * chunkSize ≤ i ∧ i < min end_ (begin + (c + 1) * chunkSize))
              ↔ c = (i - begin) / chunkSize) := by
  have hrun : ∀ fuel thread c, chunkSize < fuel →
      c < (end_ - begin + chunkSize - 1) / chunkSize →
      ChunkFunction fuel begin end_ chunkSize thread c
        = some (chunkCalls begin end_ chunkSize thread c) := by
    intro fuel thread c hf hc
    have hs := chunk_start_lt (end_ - begin) chunkSize c hcs hc
    have hm : chunkSize * (c + 1) ≤ chunkSize * ((end_ - begin + chunkSize - 1) / chunkSize) :=
      Nat.mul_le_mul_left _ hc
    rw [Nat.mul_add, Nat.mul_one] at hm
    exact ChunkFunction_eq fuel begin end_ chunkSize thread c hend hf (by omega)
  refine ⟨(end_ - begin + chunkSize - 1) / chunkSize, chunks_eq _ _ hcs h1, rfl,
    chunks_ceil _ _ (by omega) hcs, ?_, ?_, ?_, ?_⟩
  · intro fuel thread c hf hnw
    rw [Nat.add_mul, Nat.one_mul, Nat.mul_comm c] at hnw
    exact ChunkFunction_eq fuel begin end_ chunkSize thread c hend hf (by omega)
  · intro c hc
    have hs := chunk_start_lt (end_ - begin) chunkSize c hcs hc
    have hm : chunkSize * (c + 1) ≤ chunkSize * ((end_ - begin + chunkSize - 1) / chunkSize) :=
      Nat.mul_le_mul_left _ hc
    rw [Nat.mul_add, Nat.mul_one] at hm
    rw [Nat.add_mul, Nat.one_mul, Nat.mul_comm c, lt_min_iff]
    omega
  · intro fuel thread hf
    rw [collect_map _ (chunkCalls begin end_ chunkSize thread) _
      (fun c hc => hrun fuel thread c hf (List.mem_range.mp hc))]
    simp only [Option.map_some']
    rw [← List.flatMap_def, chunkCalls_all begin end_ chunkSize thread hcs]
    rfl
  · intro i hi hie
    exact ⟨chunk_of_index_lt begin end_ chunkSize i hcs hi hie,
      fun c => chunk_of_index begin end_ chunkSize i c hcs hi hie⟩

/-- C4 at `begin=0`, `end=1000`, `chunkSize=100`. -/
theorem C4_chunks_partition_range_witness :
    ∃ n : Nat,
      chunks (1000 - 0) 100 = some n
      ∧ n = (1000 - 0 + 100 - 1) / 100
      ∧ n = ⌈((1000 - 0 : ℕ) : ℚ) / ((100 : ℕ) : ℚ)⌉₊
      ∧ (∀ fuel thread c, 100 < fuel → 0 + (c + 1) * 100 < SIZE →
          ChunkFunction fuel 0 1000 100 thread c
            = some ((List.range' (0 + c * 100)
                (min 1000 (0 + (c + 1) * 100) - (0 + c * 100))).map
                fun i => (thread, i)))
      ∧ (∀ c, c < n →
          0 + (c + 1) * 100 < SIZE
          ∧ 0 + c * 100 < min 1000 (0 + (c + 1) * 100))
      ∧ (∀ fuel thread, 100 < fuel →
          (collect ((List.range n).map (ChunkFunction fuel 0 1000 100 thread))).map
              List.flatten
            = some ((List.range' 0 (1000 - 0)).map fun i => (thread, i)))
      ∧ (∀ i, 0 ≤ i → i < 1000 →
          (i - 0) / 100 < n
          ∧ ∀ c, (0 + c * 100 ≤ i ∧ i < min 1000 (0 + (c + 1) * 100))
              ↔ c = (i - 0) / 100) :=
  C4_chunks_partition_range 0 1000 100 (by decide) (by decide) (by decide) (by decide)
    (by decide)

/-! ## The static schedule -/

/-- Membership in a round-robin share. -/
theorem mem_roundRobin (chunks threads t c : Nat) (ht : t < threads) :
    c ∈ roundRobin chunks threads t ↔ c < chunks ∧ c % threads = t := by
  have hpos : 0 < threads := by omega
  unfold roundRobin
  rw [List.mem_range']
  constructor
  · rintro ⟨k, hk, rfl⟩
    have hk1 : (k + 1) * threads ≤ chunks - t + threads - 1 :=
      (Nat.le_div_iff_mul_le hpos).mp hk
    rw [Nat.add_mul, Nat.one_mul, Nat.mul_comm] at hk1
    refine ⟨by omega, ?_⟩
    rw [Nat.add_mul_mod_self_left, Nat.mod_eq_of_lt ht]
  · rintro ⟨hc, hm⟩
    refine ⟨c / threads, ?_, ?_⟩
    · have hd := Nat.div_add_mod c threads
      show c / threads + 1 ≤ (chunks - t + threads - 1) / threads
      rw [Nat.le_div_iff_mul_le hpos, Nat.add_mul, Nat.one_mul, Nat.mul_comm]
      omega
    · have hd := Nat.div_add_mod c threads
      omega

/-- With the static schedule and no wrap of the chunk counter, `_StaticThreadFunction`
runs to its end and thread `t` executes the chunks of its round-robin share in order. -/
theorem StaticThreadFunction_eq (fuel begin end_ chunkSize threads t : Nat)
    (hend : end_ < SIZE) (hcs : 1 ≤ chunkSize) (hth : 0 < threads)
    (h2 : begin + chunkSize * ((end_ - begin + chunkSize - 1) / chunkSize) < SIZE)
    (h3 : (end_ - begin + chunkSize - 1) / chunkSize + threads ≤ SIZE)
    (hf1 : chunkSize < fuel) (hf2 : (end_ - begin + chunkSize - 1) / chunkSize < fuel) :
    StaticThreadFunction fuel begin end_ chunkSize
        ((end_ - begin + chunkSize - 1) / chunkSize) threads t
      = some ((roundRobin ((end_ - begin + chunkSize - 1) / chunkSize) threads t).flatMap
          (chunkCalls begin end_ chunkSize t)) := by
  unfold StaticThreadFunction roundRobin
  apply forLoop_stride _ _ _ _ hth h3 _ fuel t (by omega)
  intro c hc
  have hs := chunk_start_lt (end_ - begin) chunkSize c hcs hc
  have hm : chunkSize * (c + 1) ≤ chunkSize * ((end_ - begin + chunkSize - 1) / chunkSize) :=
    Nat.mul_le_mul_left _ hc
  rw [Nat.mul_add, Nat.mul_one] at hm
  exact ChunkFunction_eq fuel begin end_ chunkSize t c hend hf1 (by omega)

/-- Counting over a list without repetition in which only the part of `a` counts. -/
theorem countP_flatMap_unique {α : Type} [DecidableEq α] (p : Call → Bool)
    (f : α → List Call) (a : α) :
    ∀ l : List α, l.Nodup →
      (∀ x, x ∈ l → List.countP p (f x) = if x = a then 1 else 0) →
      List.countP p (l.flatMap f) = if a ∈ l then 1 else 0 := by
  intro l
  induction l with
  | nil => intro _ _; simp
  | cons x l ih =>
    intro hnd h
    rw [List.nodup_cons] at hnd
    rw [List.flatMap_cons, List.countP_append, h x (List.mem_cons_self x l),
      ih hnd.2 (fun y hy => h y (List.mem_cons_of_mem x hy))]
    by_cases hxa : x = a
    · subst hxa
      simp [hnd.1]
    · have : a ≠ x := fun e => hxa e.symm
      simp [hxa, this]

/-- An index is called once by the chunk that holds it and not at all by another. -/
theorem countP_chunkCalls (begin end_ chunkSize t c i : Nat) (hcs : 1 ≤ chunkSize)
    (hi : begin ≤ i) (hie : i < end_) :
    List.countP (fun x : Call => decide (x.2 = i)) (chunkCalls begin end_ chunkSize t c)
      = if c = (i - begin) / chunkSize then 1 else 0 := by
  have key := chunk_of_index begin end_ chunkSize i c hcs hi hie
  unfold chunkCalls
  rw [List.countP_map]
  have hfun : ((fun x : Call => decide (x.2 = i)) ∘ fun j => (t, j)) = fun j => j == i := by
    funext j
    simp only [Function.comp]
    rw [Bool.eq_iff_iff]
    simp
  rw [hfun, ← List.count_eq_countP]
  by_cases hc : c = (i - begin) / chunkSize
  · have hmem := key.mpr hc
    rw [if_pos hc]
    apply List.count_eq_one_of_mem (List.nodup_range' _ _)
    rw [List.mem_range'_1]
    omega
  · rw [if_neg hc]
    apply List.count_eq_zero_of_not_mem
    rw [List.mem_range'_1]
    intro hmem
    exact hc (key.mp (by omega))

/-- A round-robin share lists no chunk twice. -/
theorem nodup_roundRobin (chunks threads t : Nat) (hth : 0 < threads) :
    (roundRobin chunks threads t).Nodup :=
  List.nodup_range' _ _ _ hth

/-- Thread `t` calls an index of the range once when the chunk of the index is in its
round-robin share, that is when `t = ((i-begin)/chunkSize) mod threads`, and not at all
otherwise. -/
theorem countP_roundRobin (begin end_ chunkSize threads t i : Nat) (hcs : 1 ≤ chunkSize)
    (ht : t < threads) (hi : begin ≤ i) (hie : i < end_) :
    List.countP (fun x : Call => decide (x.2 = i))
        ((roundRobin ((end_ - begin + chunkSize - 1) / chunkSize) threads t).flatMap
          (chunkCalls begin end_ chunkSize t))
      = if t = (i - begin) / chunkSize % threads then 1 else 0 := by
  rw [countP_flatMap_unique _ _ ((i - begin) / chunkSize) _
    (nodup_roundRobin _ _ _ (by omega))
    (fun c _ => countP_chunkCalls begin end_ chunkSize t c i hcs hi hie)]
  have hmem := mem_roundRobin ((end_ - begin + chunkSize - 1) / chunkSize) threads t
    ((i - begin) / chunkSize) ht
  have hlt := chunk_of_index_lt begin end_ chunkSize i hcs hi hie
  by_cases h : t = (i - begin) / chunkSize % threads
  · rw [if_pos h, if_pos (hmem.mpr ⟨hlt, h.symm⟩)]
  · rw [if_neg h, if_neg (fun h2 => h (hmem.mp h2).2.symm)]

/-- The number of calls on an index of the range when the threads `ids` (distinct, below
`threads`) each run their round-robin share: one if the thread
`((i-begin)/chunkSize) mod threads` is among them, none if it is not. -/
theorem hits_roundRobin (begin end_ chunkSize threads i : Nat) (ids : List Nat)
    (hcs : 1 ≤ chunkSize) (hids : ∀ t, t ∈ ids → t < threads) (hnd : ids.Nodup)
    (hi : begin ≤ i) (hie : i < end_) :
    hits i ([] :: ids.map fun t =>
        (roundRobin ((end_ - begin + chunkSize - 1) / chunkSize) threads t).flatMap
          (chunkCalls begin end_ chunkSize t))
      = if (i - begin) / chunkSize % threads ∈ ids then 1 else 0 := by
  unfold hits
  rw [← List.countP_eq_length_filter, List.flatten_cons, List.nil_append, ← List.flatMap_def]
  exact countP_flatMap_unique _ _ _ ids hnd
    (fun t ht => countP_roundRobin begin end_ chunkSize threads t i hcs (hids t ht) hi hie)

/-- The call on index `i` of the thread whose share holds the chunk of `i`. -/
theorem mem_roundRobin_calls (begin end_ chunkSize threads i : Nat) (hcs : 1 ≤ chunkSize)
    (hth : 0 < threads) (hi : begin ≤ i) (hie : i < end_) :
    ((i - begin) / chunkSize % threads, i) ∈
      (roundRobin ((end_ - begin + chunkSize - 1) / chunkSize) threads
          ((i - begin) / chunkSize % threads)).flatMap
        (chunkCalls begin end_ chunkSize ((i - begin) / chunkSize % threads)) := by
  rw [List.mem_flatMap]
  refine ⟨(i - begin) / chunkSize, ?_, ?_⟩
  · rw [mem_roundRobin _ _ _ _ (Nat.mod_lt _ hth)]
    exact ⟨chunk_of_index_lt begin end_ chunkSize i hcs hi hie, rfl⟩
  · have key := (chunk_of_index begin end_ chunkSize i _ hcs hi hie).mpr rfl
    unfold chunkCalls
    rw [List.mem_map]
    refine ⟨i, ?_, rfl⟩
    rw [List.mem_range'_1]
    omega

/-- The thread ids of the `ASYNC` branch: `0` inline and `1, ..., threads-1` spawned. -/
theorem async_ids (threads : Nat) (hth : 1 ≤ threads) :
    [0] ++ List.range' 1 (threads - 1) ++ [] = List.range threads := by
  obtain ⟨k, rfl⟩ : ∃ k, threads = k + 1 := ⟨threads - 1, by omega⟩
  rw [List.range_eq_range', List.range'_succ]
  simp

/-! ## The branches of `Parallel_for` -/

/-- The `ASYNC` branch: the job is stored, `threads-1` tasks are spawned with the ids
`1, ..., threads-1`, and the invoking thread calls `_ThreadFunction( 0 )`. -/
theorem Parallel_for_async (fuel : Nat) (p : Pool) (begin end_ f : Nat)
    (schedule : ScheduleType) (chunkSize n : Nat)
    (hp : p._ParallelType = ParallelType.ASYNC) (hth : NumThreads p ≠ 1)
    (hlt : begin < end_) (hge : chunkSize ≤ end_ - begin)
    (hn : chunks (end_ - begin) chunkSize = some n) :
    Parallel_for fuel p begin end_ f schedule chunkSize
      = some { Outcome.idle { p with _ThreadFunction := some (Job.mk schedule f begin end_
                 chunkSize n (NumThreads p)) } with
               async := List.range' 1 (NumThreads p - 1), inline := [0] } := by
  unfold Parallel_for
  rw [if_neg (by omega)]
  simp only [hn, hp]
  rw [if_neg (by simp; omega)]

/-- The calls of all threads of a job with the static schedule that the threads `ids`
run, when nothing wraps: each thread has the chunks of its round-robin share. -/
theorem threadCalls_static (fuel : Nat) (o : Outcome) (f begin end_ chunkSize threads : Nat)
    (ids : List Nat)
    (hjob : o.pool._ThreadFunction = some (Job.mk ScheduleType.STATIC f begin end_ chunkSize
      ((end_ - begin + chunkSize - 1) / chunkSize) threads))
    (hids : o.inline ++ o.async ++ o.notified = ids)
    (hend : end_ < SIZE) (hcs : 1 ≤ chunkSize) (hth : 0 < threads)
    (h2 : begin + chunkSize * ((end_ - begin + chunkSize - 1) / chunkSize) < SIZE)
    (h3 : (end_ - begin + chunkSize - 1) / chunkSize + threads ≤ SIZE)
    (hf1 : chunkSize < fuel) (hf2 : (end_ - begin + chunkSize - 1) / chunkSize < fuel) :
    threadCalls fuel o
      = some (o.calls :: ids.map fun t =>
          (roundRobin ((end_ - begin + chunkSize - 1) / chunkSize) threads t).flatMap
            (chunkCalls begin end_ chunkSize t)) := by
  unfold threadCalls
  rw [hjob]
  simp only [hids]
  rw [collect_map (ThreadFunction fuel (Job.mk ScheduleType.STATIC f begin end_ chunkSize
      ((end_ - begin + chunkSize - 1) / chunkSize) threads)) (fun t =>
      (roundRobin ((end_ - begin + chunkSize - 1) / chunkSize) threads t).flatMap
        (chunkCalls begin end_ chunkSize t)) ids
    (fun t _ => StaticThreadFunction_eq fuel begin end_ chunkSize threads t hend hcs hth h2 h3
      hf1 hf2)]
  rfl

/-! ## C3: the static schedule under `ASYNC` -/

/-- C3 (amended).  With the `ASYNC` strategy, `threads = NumThreads() ≥ 2`, the `STATIC`
schedule, `size_t` values `begin < end`, `chunkSize ≥ 1` with `end-begin ≥ chunkSize`,
and no 64-bit wrap (`end-begin+chunkSize-1`, `begin+chunkSize*chunks` and
`chunks+threads` fit in 64 bits): `Parallel_for` stores the static job, spawns tasks for
the ids `1, ..., threads-1` and calls `_ThreadFunction( 0 )` itself; thread `t < threads`
runs to its end and executes exactly the chunks `t, t+threads, t+2*threads, ...` below
the chunk count (the chunks `c < chunks` with `c mod threads = t`), in that order; hence every index `i` of `[begin,end)` is passed to the
iteration function exactly once, by thread `((i-begin)/chunkSize) mod threads`; all of
this is a function of `(begin, end, chunkSize, threads)` only. -/
theorem C3_async_static_round_robin (p : Pool) (begin end_ f chunkSize : Nat)
    (hp : p._ParallelType = ParallelType.ASYNC) (hth : 2 ≤ NumThreads p)
    (hlt : begin < end_) (hend : end_ < SIZE) (hcs : 1 ≤ chunkSize)
    (hge : chunkSize ≤ end_ - begin)
    (h1 : end_ - begin + chunkSize - 1 < SIZE)
    (h2 : begin + chunkSize * ((end_ - begin + chunkSize - 1) / chunkSize) < SIZE)
    (h3 : (end_ - begin + chunkSize - 1) / chunkSize + NumThreads p ≤ SIZE) :
    ∃ (o : Outcome) (job : Job),
      (∀ fuel, Parallel_for fuel p begin end_ f ScheduleType.STATIC chunkSize = some o)
      ∧ o.pool._ThreadFunction = some job
      ∧ o.calls = [] ∧ o.inline = [0] ∧ o.async = List.range' 1 (NumThreads p - 1)
      ∧ o.notified = []
      ∧ (∀ fuel t, chunkSize < fuel → (end_ - begin + chunkSize - 1) / chunkSize < fuel →
          t < NumThreads p →
          ThreadFunction fuel job t
            = some ((List.range' t
                (((end_ - begin + chunkSize - 1) / chunkSize - t + NumThreads p - 1)
                  / NumThreads p) (NumThreads p)).flatMap
                fun c => (List.range' (begin + c * chunkSize)
                  (min end_ (begin + (c + 1) * chunkSize) - (begin + c * chunkSize))).map
                  fun i => (t, i)))
      ∧ (∀ t c, t < NumThreads p →
          (c ∈ List.range' t
              (((end_ - begin + chunkSize - 1) / chunkSize - t + NumThreads p - 1)
                / NumThreads p) (NumThreads p)
            ↔ c < (end_ - begin + chunkSize - 1) / chunkSize ∧ c % NumThreads p = t))
      ∧ (∀ fuel i, chunkSize < fuel → (end_ - begin + chunkSize - 1) / chunkSize < fuel →
          begin ≤ i → i < end_ →
          ∃ ts, threadCalls fuel o = some ts ∧ hits i ts = 1
            ∧ ((i - begin) / chunkSize % NumThreads p, i) ∈ ts.flatten) := by
  have hn := chunks_eq (end_ - begin) chunkSize hcs h1
  have hpf := fun fuel => Parallel_for_async fuel p begin end_ f ScheduleType.STATIC chunkSize
    _ hp (by omega) hlt hge hn
  refine ⟨_, _, hpf, rfl, rfl, rfl, rfl, rfl, ?_, ?_, ?_⟩
  · intro fuel t hf1 hf2 _
    exact StaticThreadFunction_eq fuel begin end_ chunkSize (NumThreads p) t hend hcs
      (by omega) h2 h3 hf1 hf2
  · intro t c ht
    exact mem_roundRobin _ _ t c ht
  · intro fuel i hf1 hf2 hi hie
    refine ⟨_, threadCalls_static fuel _ f begin end_ chunkSize (NumThreads p)
      (List.range (NumThreads p)) rfl (async_ids (NumThreads p) (by omega)) hend hcs
      (by omega) h2 h3 hf1 hf2, ?_, ?_⟩
    · show hits i ([] :: _) = 1
      rw [hits_roundRobin begin end_ chunkSize (NumThreads p) i _ hcs
        (fun t ht => List.mem_range.mp ht) (List.nodup_range _) hi hie,
        if_pos (List.mem_range.mpr (Nat.mod_lt _ (by omega)))]
    · show _ ∈ List.flatten ([] :: _)
      rw [List.flatten_cons, List.nil_append, ← List.flatMap_def, List.mem_flatMap]
      exact ⟨(i - begin) / chunkSize % NumThreads p,
        List.mem_range.mpr (Nat.mod_lt _ (by omega)),
        mem_roundRobin_calls begin end_ chunkSize (NumThreads p) i hcs (by omega) hi hie⟩

/-- C3 at `Init( ASYNC , 4 )`, `begin=0`, `end=1000`, `chunkSize=100`: index 300 is
called once, by thread 3. -/
theorem C3_async_static_round_robin_witness :
    ∃ o : Outcome,
      Parallel_for 0 (Init Pool.start ParallelType.ASYNC 4) 0 1000 0 ScheduleType.STATIC 100
        = some o
      ∧ o.inline = [0] ∧ o.async = [1, 2, 3]
      ∧ ∃ ts, threadCalls 1001 o = some ts ∧ hits 300 ts = 1 ∧ (3, 300) ∈ ts.flatten := by
  obtain ⟨o, _, hpf, _, _, hin, has, _, _, _, hall⟩ :=
    C3_async_static_round_robin (Init Pool.start ParallelType.ASYNC 4) 0 1000 0 100
      (by decide) (by decide) (by decide) (by decide) (by decide) (by decide) (by decide)
      (by decide) (by decide)
  obtain ⟨ts, hts, hh, hm⟩ := hall 1001 300 (by decide) (by decide) (by decide) (by decide)
  exact ⟨o, hpf 0, hin, has, ts, hts, hh, hm⟩

/-- C3, counterexample to the claim as stated (every `begin < end`, every
`chunkSize ≥ 1`): with `Init( ASYNC , 2 )`, `begin=0`, `end=2^64-1`, `chunkSize=2` the
sum `range + chunkSize - 1` wraps, `chunks` is `0`, and no thread makes any call, so
index `0` is passed to the iteration function zero times. -/
theorem C3_counterexample_chunk_count_wraps :
    (0 : Nat) < 2 ^ 64 - 1 ∧ 2 ^ 64 - 1 < SIZE ∧ 2 ≤ 2 ^ 64 - 1 - 0
    ∧ NumThreads (Init Pool.start ParallelType.ASYNC 2) = 2
    ∧ ∃ o : Outcome,
        (∀ fuel, Parallel_for fuel (Init Pool.start ParallelType.ASYNC 2) 0 (2 ^ 64 - 1) 0
          ScheduleType.STATIC 2 = some o)
        ∧ o.inline = [0] ∧ o.async = [1]
        ∧ ∀ k, threadCalls (k + 1) o = some [[], [], []] ∧ hits 0 [[], [], []] = 0 := by
  have hn : chunks (2 ^ 64 - 1 - 0) 2 = some 0 := by decide
  refine ⟨by decide, by decide, by decide, by decide, _, fun fuel =>
    Parallel_for_async fuel _ 0 (2 ^ 64 - 1) 0 ScheduleType.STATIC 2 0 (by decide) (by decide)
      (by decide) (by decide) hn, rfl, by decide, ?_⟩
  intro k
  refine ⟨?_, by decide⟩
  have hids : [0] ++ List.range' 1 (NumThreads (Init Pool.start ParallelType.ASYNC 2) - 1)
      ++ [] = [0, 1] := by decide
  simp only [threadCalls, Outcome.idle, hids, List.map, ThreadFunction, StaticThreadFunction,
    forLoop]
  simp [collect]

/-- The `THREAD_POOL` branch when the guard succeeds (`_RemainingTasks` is `0`): the job
is stored, the counter becomes `threads-1`, the workers are notified and the invoking
thread waits; it makes no call itself. -/
theorem Parallel_for_pool_dispatch (fuel : Nat) (p : Pool) (begin end_ f : Nat)
    (schedule : ScheduleType) (chunkSize n : Nat)
    (hp : p._ParallelType = ParallelType.THREAD_POOL) (hth : NumThreads p ≠ 1)
    (hlt : begin < end_) (hge : chunkSize ≤ end_ - begin)
    (hn : chunks (end_ - begin) chunkSize = some n) (hr : p._RemainingTasks = 0) :
    Parallel_for fuel p begin end_ f schedule chunkSize
      = some { Outcome.idle { p with
                 _ThreadFunction := some (Job.mk schedule f begin end_ chunkSize n
                   (NumThreads p)),
                 _RemainingTasks := (NumThreads p + UINT - 1) % UINT } with
               notified := workers p, waited := true } := by
  unfold Parallel_for
  rw [if_neg (by omega)]
  simp only [hn, hp]
  rw [if_neg (by simp; omega)]
  simp [SetAtomic, SetAtomic32, hr, workers]

/-- The `THREAD_POOL` branch when the guard fails (`_RemainingTasks` is not `0`): the
job is stored all the same, `WARN` is called, and the invoking thread runs the whole
range itself with thread id `0`; the counter is not written and nobody is waited for. -/
theorem Parallel_for_pool_fallback (fuel : Nat) (p : Pool) (begin end_ f : Nat)
    (schedule : ScheduleType) (chunkSize n : Nat)
    (hp : p._ParallelType = ParallelType.THREAD_POOL) (hth : NumThreads p ≠ 1)
    (hlt : begin < end_) (hend : end_ < SIZE) (hge : chunkSize ≤ end_ - begin)
    (hn : chunks (end_ - begin) chunkSize = some n) (hr : p._RemainingTasks ≠ 0)
    (hfuel : end_ - begin < fuel) :
    Parallel_for fuel p begin end_ f schedule chunkSize
      = some { Outcome.idle { p with
                 _ThreadFunction := some (Job.mk schedule f begin end_ chunkSize n
                   (NumThreads p)) } with
               calls := rangeCalls begin end_ 0, warned := true } := by
  unfold Parallel_for
  rw [if_neg (by omega)]
  simp only [hn, hp]
  rw [if_neg (by simp; omega)]
  simp [SetAtomic, SetAtomic32, hr, forLoop_seq 0 end_ hend fuel begin hfuel, rangeCalls]

/-! ## C1: the static schedule under `THREAD_POOL` -/

/-- C1 (code defect).  After `Init( THREAD_POOL , 4 )`, with no job in flight, the call
`Parallel_for( 0 , 1000 , f , STATIC , 100 )` stores the static job for `threads = 4`,
wakes the three workers, whose ids are `0, 1, 2`, and waits; the invoking thread makes
no call and does not run `_ThreadFunction`.  So the chunks `3` and `7` of the share of
thread id `3` are run by nobody: with any fuel above 100 the workers run to their end
and index `300` is passed to the iteration function zero times (index `0` once). -/
theorem C1_pool_static_skips_last_share :
    (Init Pool.start ParallelType.THREAD_POOL 4)._RemainingTasks = 0
    ∧ NumThreads (Init Pool.start ParallelType.THREAD_POOL 4) = 4
    ∧ ∃ o : Outcome,
        (∀ fuel, Parallel_for fuel (Init Pool.start ParallelType.THREAD_POOL 4) 0 1000 0
          ScheduleType.STATIC 100 = some o)
        ∧ o.calls = [] ∧ o.inline = [] ∧ o.async = [] ∧ o.notified = [0, 1, 2]
        ∧ o.waited = true
        ∧ ∀ k, ∃ ts, threadCalls (101 + k) o = some ts ∧ hits 300 ts = 0 ∧ hits 0 ts = 1 := by
  have hn : chunks (1000 - 0) 100 = some ((1000 - 0 + 100 - 1) / 100) := by decide
  refine ⟨by decide, by decide, _, fun fuel =>
    Parallel_for_pool_dispatch fuel _ 0 1000 0 ScheduleType.STATIC 100 _ (by decide)
      (by decide) (by decide) (by decide) hn (by decide), rfl, rfl, rfl, by decide, rfl, ?_⟩
  intro k
  refine ⟨_, threadCalls_static (101 + k) _ 0 0 1000 100 4 [0, 1, 2] (by decide) (by decide)
    (by decide) (by decide) (by decide) (by decide) (by decide) (by omega)
    (by show (1000 - 0 + 100 - 1) / 100 < 101 + k; omega), ?_, ?_⟩
  · show hits 300 ([] :: _) = 0
    rw [hits_roundRobin 0 1000 100 4 300 [0, 1, 2] (by decide) (by decide) (by decide)
      (by decide) (by decide)]
    decide
  · show hits 0 ([] :: _) = 1
    rw [hits_roundRobin 0 1000 100 4 0 [0, 1, 2] (by decide) (by decide) (by decide)
      (by decide) (by decide)]
    decide

/-! ## C5, C6, C7: the reentrancy guard and the dispatch -/

/-- The division of `chunks` succeeds for every `chunkSize ≥ 1`. -/
theorem chunks_some (range chunkSize : Nat) (hcs : 1 ≤ chunkSize) :
    ∃ n, chunks range chunkSize = some n := by
  unfold chunks
  rw [if_neg (by omega)]
  exact ⟨_, rfl⟩

/-- The loop of the invoking thread passes every index of `[begin,end)` once. -/
theorem hits_rangeCalls (begin end_ t i : Nat) (hi : begin ≤ i) (hie : i < end_) :
    hits i [(List.range' begin (end_ - begin)).map (fun j => (t, j))] = 1 := by
  unfold hits
  rw [List.flatten_cons, List.flatten_nil, List.append_nil, ← List.countP_eq_length_filter,
    List.countP_map]
  have hfun : ((fun x : Call => decide (x.2 = i)) ∘ fun j => (t, j)) = fun j => j == i := by
    funext j
    simp only [Function.comp]
    rw [Bool.eq_iff_iff]
    simp
  rw [hfun, ← List.count_eq_countP]
  apply List.count_eq_one_of_mem (List.nodup_range' _ _)
  rw [List.mem_range'_1]
  omega

/-- With `chunkSize = 0` the division `(range+chunkSize-1)/chunkSize` comes before the
shortcut test and before the guard: a call on a non-empty range does not reach the
dispatch, whatever the strategy and the counter. -/
theorem Parallel_for_chunkSize_zero (fuel : Nat) (p : Pool) (begin end_ f : Nat)
    (schedule : ScheduleType) (hlt : begin < end_) :
    Parallel_for fuel p begin end_ f schedule 0 = none := by
  unfold Parallel_for
  rw [if_neg (by omega)]
  rfl

/-- C5 (confirmed).  With the `THREAD_POOL` strategy, `NumThreads() ≥ 2`, `size_t` values
`begin < end` and every `chunkSize` with `end-begin ≥ chunkSize`: if the call reaches the
dispatch (the chunk count has been computed, `chunks = some n`) and `_RemainingTasks` is
not zero there, the call runs to its end (with fuel above `end-begin`), calls
`f(0,begin), f(0,begin+1), ..., f(0,end-1)` in this order on the invoking thread, runs
no `_ThreadFunction`, wakes nobody, does not wait, warns, and leaves `_RemainingTasks`
at the value it had on entry. -/
theorem C5_guard_failure_runs_serially (fuel : Nat) (p : Pool) (begin end_ f : Nat)
    (schedule : ScheduleType) (chunkSize n : Nat)
    (hp : p._ParallelType = ParallelType.THREAD_POOL) (hth : 2 ≤ NumThreads p)
    (hlt : begin < end_) (hend : end_ < SIZE)
    (hge : chunkSize ≤ end_ - begin)
    (hn : chunks (end_ - begin) chunkSize = some n) (hr : p._RemainingTasks ≠ 0)
    (hfuel : end_ - begin < fuel) :
    ∃ o : Outcome,
      Parallel_for fuel p begin end_ f schedule chunkSize = some o
      ∧ o.calls = (List.range' begin (end_ - begin)).map (fun i => (0, i))
      ∧ (∀ i, begin ≤ i → i < end_ → hits i [o.calls] = 1)
      ∧ o.inline = [] ∧ o.async = [] ∧ o.notified = []
      ∧ o.waited = false ∧ o.warned = true
      ∧ o.pool._RemainingTasks = p._RemainingTasks := by
  refine ⟨_, Parallel_for_pool_fallback fuel p begin end_ f schedule chunkSize n hp (by omega)
    hlt hend hge hn hr hfuel, rfl, ?_, rfl, rfl, rfl, rfl, rfl, rfl⟩
  intro i hb he
  exact hits_rangeCalls begin end_ 0 i hb he

/-- C5 with a job in flight after `Init( THREAD_POOL , 4 )` (`_RemainingTasks = 3`),
`begin=0`, `end=1000`, `chunkSize=100`, where the chunk count is `10`. -/
theorem C5_guard_failure_runs_serially_witness :
    ∃ o : Outcome,
      Parallel_for 1001 { Init Pool.start ParallelType.THREAD_POOL 4 with _RemainingTasks := 3 }
        0 1000 0 ScheduleType.STATIC 100 = some o
      ∧ o.calls = (List.range' 0 (1000 - 0)).map (fun i => (0, i))
      ∧ (∀ i, 0 ≤ i → i < 1000 → hits i [o.calls] = 1)
      ∧ o.inline = [] ∧ o.async = [] ∧ o.notified = []
      ∧ o.waited = false ∧ o.warned = true
      ∧ o.pool._RemainingTasks = 3 :=
  C5_guard_failure_runs_serially 1001
    { Init Pool.start ParallelType.THREAD_POOL 4 with _RemainingTasks := 3 } 0 1000 0
    ScheduleType.STATIC 100 10 (by decide) (by decide) (by decide) (by decide) (by decide)
    (by decide) (by decide) (by decide)

/-- C6 (code defect).  `Parallel_for` assigns `_ThreadFunction` before it tries the
guard.  After `Init( THREAD_POOL , 2 )` the outer call
`Parallel_for( 0 , 4 , f0 , STATIC , 1 )` passes the guard and publishes its job; a
nested call `Parallel_for( 0 , 2 , f1 , STATIC , 1 )` made while that job is in flight
(`_RemainingTasks = 1`) fails the guard, warns, runs `f1(0,0), f1(0,1)` itself, and
leaves in `_ThreadFunction` its own job in place of the outer one. -/
theorem C6_guard_failure_overwrites_job :
    ∃ outer nested : Outcome,
      Parallel_for 3 (Init Pool.start ParallelType.THREAD_POOL 2) 0 4 0 ScheduleType.STATIC 1
        = some outer
      ∧ outer.waited = true ∧ outer.pool._RemainingTasks = 1
      ∧ outer.pool._ThreadFunction = some (Job.mk ScheduleType.STATIC 0 0 4 1 4 2)
      ∧ Parallel_for 3 outer.pool 0 2 1 ScheduleType.STATIC 1 = some nested
      ∧ nested.warned = true ∧ nested.waited = false
      ∧ nested.calls = [(0, 0), (0, 1)]
      ∧ nested.pool._RemainingTasks = 1
      ∧ nested.pool._ThreadFunction = some (Job.mk ScheduleType.STATIC 1 0 2 1 2 2)
      ∧ nested.pool._ThreadFunction ≠ outer.pool._ThreadFunction := by
  refine ⟨⟨⟨false, 1, [some 0], some (Job.mk ScheduleType.STATIC 0 0 4 1 4 2),
      ParallelType.THREAD_POOL⟩, [], [], [], [0], false, true⟩,
    ⟨⟨false, 1, [some 0], some (Job.mk ScheduleType.STATIC 1 0 2 1 2 2),
      ParallelType.THREAD_POOL⟩, [(0, 0), (0, 1)], [], [], [], true, false⟩, ?_⟩
  decide

/-- C7 (code defect).  After `Init( THREAD_POOL , 4 )` the three workers are started as
`_ThreadInitFunction( 0 )`, `( 1 )`, `( 2 )`; a dispatched job, static or dynamic, is
run by the workers with the ids `0, 1, 2` (not `1, 2, 3`), and the invoking thread only
notifies and waits: it calls neither `_ThreadFunction( 0 )` nor the iteration function. -/
theorem C7_caller_only_waits :
    workers (Init Pool.start ParallelType.THREAD_POOL 4) = [0, 1, 2]
    ∧ NumThreads (Init Pool.start ParallelType.THREAD_POOL 4) = 4
    ∧ ∀ schedule, ∃ o : Outcome,
        (∀ fuel, Parallel_for fuel (Init Pool.start ParallelType.THREAD_POOL 4) 0 1000 0
          schedule 100 = some o)
        ∧ o.waited = true ∧ o.pool._RemainingTasks = 3
        ∧ o.inline = [] ∧ o.calls = [] ∧ o.async = []
        ∧ o.notified = [0, 1, 2] := by
  refine ⟨by decide, by decide, fun schedule => ?_⟩
  have hn : chunks (1000 - 0) 100 = some ((1000 - 0 + 100 - 1) / 100) := by decide
  have h3 : (NumThreads (Init Pool.start ParallelType.THREAD_POOL 4) + UINT - 1) % UINT = 3 := by
    decide
  have hw : workers (Init Pool.start ParallelType.THREAD_POOL 4) = [0, 1, 2] := by decide
  exact ⟨_, fun fuel =>
    Parallel_for_pool_dispatch fuel _ 0 1000 0 schedule 100 _ (by decide)
      (by decide) (by decide) (by decide) hn (by decide), rfl, h3, rfl, rfl, rfl, hw⟩

/-! ## C9: compare-and-swap -/

/-- One `SetAtomic` step, whatever the width: success and the new value when the cell
holds `oldValue`, failure and the cell untouched otherwise. -/
theorem SetAtomic_eq (width mem newValue oldValue : Nat) :
    SetAtomic width mem newValue oldValue
      = if mem = oldValue then (true, newValue) else (false, mem) := by
  unfold SetAtomic SetAtomic32 SetAtomic64
  split <;> rfl

/-- Once the cell no longer holds `oldValue`, every later call of the race fails. -/
theorem casRace_after (width newValue oldValue : Nat) :
    ∀ (order : List Nat) (mem : Nat), mem ≠ oldValue →
      casRace width newValue oldValue order mem = (order.map fun t => (t, false), mem) := by
  intro order
  induction order with
  | nil => intro mem _; rfl
  | cons t order ih =>
    intro mem h
    simp only [casRace, SetAtomic_eq, if_neg h, ih mem h, List.map_cons]

/-- C9 (confirmed).  For every width (4, 8 or any other) and every call
`SetAtomic( value , newValue , oldValue )` run as one atomic step: if the cell held
`oldValue` the call returns `true` and the cell holds `newValue`; otherwise it returns
`false` and the cell is unchanged.  Consequently, for an integer type of `width ≥ 1`
bytes, a value `V` of that type and `N ≥ 1` threads that call
`SetAtomic( addr , V+1 , V )` in any order `order` on a cell that starts at `V`: the
first thread of the order gets `true`, every other thread gets `false`, so exactly one
call succeeds, and the cell ends at `V+1` (in the arithmetic of the type). -/
theorem C9_compare_and_swap (width : Nat) :
    (∀ mem newValue oldValue,
      (mem = oldValue → SetAtomic width mem newValue oldValue = (true, newValue))
      ∧ (mem ≠ oldValue → SetAtomic width mem newValue oldValue = (false, mem)))
    ∧ ∀ (V : Nat) (order : List Nat), 1 ≤ width → V < 2 ^ (8 * width) → 1 ≤ order.length →
        ((casRace width ((V + 1) % 2 ^ (8 * width)) V order V).1.filter
            (fun r => r.2 = true)).length = 1
        ∧ (casRace width ((V + 1) % 2 ^ (8 * width)) V order V).1.map Prod.fst = order
        ∧ (casRace width ((V + 1) % 2 ^ (8 * width)) V order V).2
            = (V + 1) % 2 ^ (8 * width) := by
  constructor
  · intro mem newValue oldValue
    rw [SetAtomic_eq]
    exact ⟨fun h => by rw [if_pos h], fun h => by rw [if_neg h]⟩
  · intro V order hw hV hN
    have hpow : 2 ≤ 2 ^ (8 * width) := by
      calc 2 = 2 ^ 1 := rfl
        _ ≤ 2 ^ (8 * width) := Nat.pow_le_pow_right (by decide) (by omega)
    have hne : (V + 1) % 2 ^ (8 * width) ≠ V := by
      by_cases h : V + 1 = 2 ^ (8 * width)
      · rw [h, Nat.mod_self]; omega
      · rw [Nat.mod_eq_of_lt (by omega)]; omega
    cases order with
    | nil => simp at hN
    | cons t order =>
      simp only [casRace, SetAtomic_eq, if_true]
      rw [casRace_after width _ V order _ hne]
      refine ⟨?_, ?_, rfl⟩
      · simp [List.filter_cons, List.filter_map, Function.comp_def]
      · simp [Function.comp_def]

/-- C9 for a 4-byte integer, `V = 7` and three racing threads in the order `2, 0, 1`. -/
theorem C9_compare_and_swap_witness :
    ((casRace 4 ((7 + 1) % 2 ^ (8 * 4)) 7 [2, 0, 1] 7).1.filter
        (fun r => r.2 = true)).length = 1
    ∧ (casRace 4 ((7 + 1) % 2 ^ (8 * 4)) 7 [2, 0, 1] 7).1.map Prod.fst = [2, 0, 1]
    ∧ (casRace 4 ((7 + 1) % 2 ^ (8 * 4)) 7 [2, 0, 1] 7).2 = (7 + 1) % 2 ^ (8 * 4) :=
  (C9_compare_and_swap 4).2 7 [2, 0, 1] (by decide) (by decide) (by decide)

/-! ## C2: the dynamic schedule -/

/-- A thread that is still in its loop is not counted among the stopped ones. -/
theorem count_true_lt (l : List Bool) (t : Nat) (h : l[t]? = some false) :
    l.count true < l.length := by
  induction l generalizing t with
  | nil => simp at h
  | cons b l ih =>
    cases t with
    | zero =>
      simp at h
      subst h
      have := List.count_le_length true l
      simp
      omega
    | succ t =>
      simp at h
      have := ih t h
      cases b <;> simp <;> omega

/-- Leaving the loop adds one to the number of stopped threads. -/
theorem count_true_set (l : List Bool) (t : Nat) (h : l[t]? = some false) :
    (l.set t true).count true = l.count true + 1 := by
  induction l generalizing t with
  | nil => simp at h
  | cons b l ih =>
    cases t with
    | zero =>
      simp at h
      subst h
      simp
    | succ t =>
      simp at h
      have := ih t h
      cases b <;> simp [this]

/-- The invariant holds at the start. -/
theorem DynInv_init (chunks w : Nat) : DynInv chunks w (DynState.init w) := by
  refine ⟨by simp [DynState.init], by simp [DynState.init], by simp [DynState.init], ?_, ?_, ?_⟩
  · have hS : 0 < SIZE := by unfold SIZE; omega
    have hc : (List.replicate w false).count true = 0 :=
      List.count_eq_zero_of_not_mem (by simp)
    simp [DynState.init, hc, Nat.mod_eq_of_lt hS]
  · intro h
    have hc : (List.replicate w false).count true = 0 :=
      List.count_eq_zero_of_not_mem (by simp)
    simp [DynState.init, hc] at h
  · intro tc h
    simp [DynState.init] at h

/-- Every iteration of a thread keeps the invariant, when `chunks + w` fits in 64 bits. -/
theorem DynInv_step (chunks w : Nat) (hw : chunks + w ≤ SIZE) (s s' : DynState) (t : Nat)
    (hinv : DynInv chunks w s) (hstep : dynStep chunks s t = some s') : DynInv chunks w s' := by
  obtain ⟨hlen, hmap, hle, hidx, hk, hids⟩ := hinv
  unfold dynStep at hstep
  by_cases hrun : s.stopped[t]? = some false
  · rw [if_pos hrun] at hstep
    have hlt := count_true_lt s.stopped t hrun
    have htw : t < w := by
      have := (List.getElem?_eq_some_iff.mp hrun).1
      omega
    have hidx' : s.index = s.claimed.length + s.stopped.count true := by
      rw [hidx]; exact Nat.mod_eq_of_lt (by omega)
    by_cases hc : s.index < chunks
    · simp only [hc, if_true, Option.some.injEq] at hstep
      subst hstep
      have hk0 : s.stopped.count true = 0 := by
        by_contra h0
        have := hk (by omega)
        omega
      refine ⟨hlen, ?_, ?_, ?_, ?_, ?_⟩
      · simp only [List.map_append, List.map_cons, List.map_nil, List.length_append,
          List.length_cons, List.length_nil, List.range_succ, hmap]
        rw [hidx', hk0, Nat.add_zero]
      · simp only [List.length_append, List.length_cons, List.length_nil]; omega
      · simp only [List.length_append, List.length_cons, List.length_nil]
        rw [hidx', hk0]
      · intro h
        dsimp only at h
        omega
      · intro tc htc
        rw [List.mem_append, List.mem_singleton] at htc
        rcases htc with h | h
        · exact hids tc h
        · rw [h]; exact htw
    · simp only [hc, if_false, Option.some.injEq] at hstep
      subst hstep
      have hfull : s.claimed.length = chunks := by
        by_cases h0 : 0 < s.stopped.count true
        · exact hk h0
        · omega
      refine ⟨by simp [hlen], hmap, hle, ?_, fun _ => hfull, hids⟩
      simp only [count_true_set s.stopped t hrun]
      rw [hidx']
      congr 1
  · rw [if_neg hrun] at hstep
    exact absurd hstep (by simp)

/-- The invariant holds in every reachable state. -/
theorem DynInv_reachable (chunks w : Nat) (hw : chunks + w ≤ SIZE) (s : DynState)
    (h : DynReachable chunks w s) : DynInv chunks w s := by
  induction h with
  | init => exact DynInv_init chunks w
  | step s t s' _ hstep ih => exact DynInv_step chunks w hw s s' t ih hstep

/-- The state an interleaving ends in is reachable. -/
theorem dynRun_reachable (chunks w : Nat) (order : List Nat) :
    ∀ s s', DynReachable chunks w s → dynRun chunks order s = some s' →
      DynReachable chunks w s' := by
  induction order with
  | nil =>
    intro s s' hs h
    simp only [dynRun, Option.some.injEq] at h
    exact h ▸ hs
  | cons t order ih =>
    intro s s' hs h
    simp only [dynRun] at h
    cases hstep : dynStep chunks s t with
    | none => rw [hstep] at h; exact absurd h (by simp)
    | some s1 =>
      rw [hstep] at h
      exact ih s1 s' (DynReachable.step s t s1 hs hstep) h

/-- Counting over the parts of a list when each part counts one or nothing. -/
theorem countP_flatMap_ite {α : Type} (p : Call → Bool) (q : α → Bool) (f : α → List Call) :
    ∀ l : List α, (∀ x, x ∈ l → List.countP p (f x) = if q x then 1 else 0) →
      List.countP p (l.flatMap f) = List.countP q l := by
  intro l
  induction l with
  | nil => intro _; simp
  | cons x l ih =>
    intro h
    rw [List.flatMap_cons, List.countP_append, h x (List.mem_cons_self x l),
      ih (fun y hy => h y (List.mem_cons_of_mem x hy)), List.countP_cons, Nat.add_comm]

/-- When the chunk indices claimed are `0, ..., n-1`, chunk `c < n` was claimed once. -/
theorem countP_claimed (claimed : List (Nat × Nat)) (n c : Nat)
    (hmap : claimed.map Prod.snd = List.range n) (hc : c < n) :
    List.countP (fun tc : Nat × Nat => decide (tc.2 = c)) claimed = 1 := by
  have h1 : List.countP (fun tc : Nat × Nat => decide (tc.2 = c)) claimed
      = List.countP (fun x : Nat => x == c) (claimed.map Prod.snd) := by
    rw [List.countP_map]
    congr 1
  rw [h1, hmap, ← List.count_eq_countP]
  exact List.count_eq_one_of_mem (List.nodup_range n) (List.mem_range.mpr hc)

/-- C2 (amended).  For every chunk count `chunks` and every number `w ≥ 1` of threads
that run the dynamic loop on a cursor that starts at `0`, provided `chunks + w ≤ 2^64`
(the 64-bit cursor cannot wrap): in every reachable state of every interleaving no
chunk index has been claimed twice, and every claim is a chunk below `chunks` by a
thread below `w`; and once all threads have left the loop, every chunk index below
`chunks` has been run exactly once (so by exactly one thread), so that for a range
whose chunk count is `chunks` (no 64-bit overflow) the chunks run to their end and every
index of `[begin,end)` is passed to the iteration function exactly once. -/
theorem C2_dynamic_claims_once (chunks w : Nat) (hw1 : 1 ≤ w) (hwrap : chunks + w ≤ SIZE)
    (s : DynState) (hs : DynReachable chunks w s) :
    (s.claimed.map Prod.snd).Nodup
    ∧ (∀ tc, tc ∈ s.claimed → tc.1 < w ∧ tc.2 < chunks)
    ∧ (s.finished →
        (∀ c, c < chunks → (s.claimed.filter fun tc => tc.2 = c).length = 1)
        ∧ ∀ begin end_ chunkSize fuel, begin < end_ → end_ < SIZE → 1 ≤ chunkSize →
            begin + chunkSize * ((end_ - begin + chunkSize - 1) / chunkSize) < SIZE →
            chunks = (end_ - begin + chunkSize - 1) / chunkSize → chunkSize < fuel →
            ∃ cs, dynCalls fuel begin end_ chunkSize s = some cs
              ∧ ∀ i, begin ≤ i → i < end_ → hits i cs = 1) := by
  obtain ⟨hlen, hmap, hle, _, hk, hids⟩ := DynInv_reachable chunks w hwrap s hs
  have hsnd : ∀ tc, tc ∈ s.claimed → tc.2 < chunks := by
    intro tc htc
    have : tc.2 ∈ s.claimed.map Prod.snd := List.mem_map_of_mem _ htc
    rw [hmap, List.mem_range] at this
    omega
  refine ⟨hmap ▸ List.nodup_range _, fun tc htc => ⟨hids tc htc, hsnd tc htc⟩, ?_⟩
  intro hfin
  have hcount : s.stopped.count true = w := by
    rw [← hlen]
    exact List.count_eq_length.mpr (fun b hb => (hfin b hb).symm)
  have hfull : s.claimed.length = chunks := hk (by omega)
  rw [hfull] at hmap
  refine ⟨fun c hc => ?_, ?_⟩
  · rw [← List.countP_eq_length_filter]
    exact countP_claimed s.claimed chunks c hmap hc
  · intro begin end_ chunkSize fuel hlt hend hcs h2 hn hfuel
    subst hn
    have hrun : ∀ tc, tc ∈ s.claimed →
        ChunkFunction fuel begin end_ chunkSize tc.1 tc.2
          = some (chunkCalls begin end_ chunkSize tc.1 tc.2) := by
      intro tc htc
      have hc := hsnd tc htc
      have hst := chunk_start_lt (end_ - begin) chunkSize tc.2 hcs hc
      have hm : chunkSize * (tc.2 + 1)
          ≤ chunkSize * ((end_ - begin + chunkSize - 1) / chunkSize) :=
        Nat.mul_le_mul_left _ hc
      rw [Nat.mul_add, Nat.mul_one] at hm
      exact ChunkFunction_eq fuel begin end_ chunkSize tc.1 tc.2 hend hfuel (by omega)
    refine ⟨_, collect_map (fun tc : Nat × Nat =>
      ChunkFunction fuel begin end_ chunkSize tc.1 tc.2)
      (fun tc => chunkCalls begin end_ chunkSize tc.1 tc.2) s.claimed hrun, ?_⟩
    intro i hi hie
    unfold hits
    rw [← List.countP_eq_length_filter, ← List.flatMap_def,
      countP_flatMap_ite _ (fun tc : Nat × Nat => decide (tc.2 = (i - begin) / chunkSize)) _
        s.claimed
        (fun tc _ => by
          rw [countP_chunkCalls begin end_ chunkSize tc.1 tc.2 i hcs hi hie]
          by_cases h : tc.2 = (i - begin) / chunkSize <;> simp [h])]
    exact countP_claimed s.claimed _ _ hmap (chunk_of_index_lt begin end_ chunkSize i hcs hi hie)

/-- C2 at `begin=0`, `end=1000`, `chunkSize=100` (10 chunks) and 4 threads that take
turns: every chunk is claimed once and every index is called once. -/
theorem C2_dynamic_claims_once_witness :
    ∃ s : DynState,
      dynRun 10 [0, 1, 2, 3, 0, 1, 2, 3, 0, 1, 2, 3, 0, 1] (DynState.init 4) = some s
      ∧ s.finished
      ∧ s.claimed = [(0, 0), (1, 1), (2, 2), (3, 3), (0, 4), (1, 5), (2, 6), (3, 7), (0, 8),
          (1, 9)]
      ∧ (s.claimed.map Prod.snd).Nodup
      ∧ (∀ c, c < 10 → (s.claimed.filter fun tc => tc.2 = c).length = 1)
      ∧ ∃ cs, dynCalls 101 0 1000 100 s = some cs
          ∧ ∀ i, 0 ≤ i → i < 1000 → hits i cs = 1 := by
  have hrun : dynRun 10 [0, 1, 2, 3, 0, 1, 2, 3, 0, 1, 2, 3, 0, 1] (DynState.init 4)
      = some ⟨14, [true, true, true, true],
          [(0, 0), (1, 1), (2, 2), (3, 3), (0, 4), (1, 5), (2, 6), (3, 7), (0, 8), (1, 9)]⟩ := by
    decide
  have hfin : DynState.finished ⟨14, [true, true, true, true],
      [(0, 0), (1, 1), (2, 2), (3, 3), (0, 4), (1, 5), (2, 6), (3, 7), (0, 8), (1, 9)]⟩ := by
    intro b hb
    simp at hb
    exact hb
  obtain ⟨hnd, _, hall⟩ := C2_dynamic_claims_once 10 4 (by decide) (by decide) _
    (dynRun_reachable 10 4 _ _ _ (DynReachable.init) hrun)
  obtain ⟨hone, hcalls⟩ := hall hfin
  exact ⟨_, hrun, hfin, rfl, hnd, hone,
    hcalls 0 1000 100 101 (by decide) (by decide) (by decide) (by decide) (by decide)
      (by decide)⟩

/-- While the first thread claims chunk after chunk, the cursor counts the chunks. -/
theorem dyn_first_thread (chunks w : Nat) (hw : 1 ≤ w) (hc : chunks < SIZE) :
    ∀ k, k ≤ chunks →
      DynReachable chunks w
        ⟨k, List.replicate w false, (List.range k).map fun c => (0, c)⟩ := by
  intro k
  induction k with
  | zero => intro _; exact DynReachable.init
  | succ k ih =>
    intro hk
    refine DynReachable.step _ 0 _ (ih (by omega)) ?_
    have h0 : (List.replicate w false)[0]? = some false := by
      obtain ⟨v, rfl⟩ : ∃ v, w = v + 1 := ⟨w - 1, by omega⟩
      simp [List.replicate_succ]
    unfold dynStep
    simp only [h0, if_true]
    rw [if_pos (by omega), Nat.mod_eq_of_lt (by omega), List.range_succ, List.map_append]
    rfl

/-- When the chunk count is `2^64 - 1` and two threads run the loop, the cursor wraps
after the first thread has stopped and the second thread claims chunk `0` again. -/
theorem dyn_wrap (chunks : Nat) (h0 : 0 < chunks) (hS : chunks + 1 = SIZE) :
    DynReachable chunks 2
      ⟨1, [true, false], ((List.range chunks).map fun c => (0, c)) ++ [(1, 0)]⟩ := by
  have h1 := dyn_first_thread chunks 2 (by decide) (by omega) chunks (Nat.le_refl _)
  have h2 : DynReachable chunks 2
      ⟨0, [true, false], (List.range chunks).map fun c => (0, c)⟩ := by
    refine DynReachable.step _ 0 _ h1 ?_
    simp [dynStep, hS, List.replicate]
  refine DynReachable.step _ 1 _ h2 ?_
  have hS1 : (0 + 1) % SIZE = 1 := Nat.mod_eq_of_lt (by unfold SIZE; omega)
  simp [dynStep, h0, hS1]

/-- C2, counterexample to the claim as stated (every chunk count, every `w ≥ 1`): with
`chunks = 2^64 - 1` (the range `[0, 2^64-1)` with `chunkSize = 1`) and `w = 2` threads,
a state is reachable in which chunk `0` has been claimed twice, once by each thread. -/
theorem C2_counterexample_cursor_wraps :
    ∃ s : DynState, DynReachable (2 ^ 64 - 1) 2 s
      ∧ (0, 0) ∈ s.claimed ∧ (1, 0) ∈ s.claimed
      ∧ ¬ (s.claimed.map Prod.snd).Nodup := by
  have hmem : (0, 0) ∈ (List.range (2 ^ 64 - 1)).map fun c => ((0 : Nat), c) :=
    List.mem_map.mpr ⟨0, List.mem_range.mpr (by decide), rfl⟩
  refine ⟨_, dyn_wrap (2 ^ 64 - 1) (by decide) (by decide), ?_, ?_, ?_⟩
  · exact List.mem_append_left _ hmem
  · exact List.mem_append_right _ (List.mem_singleton_self _)
  · intro hnd
    rw [List.map_append, List.nodup_append] at hnd
    exact hnd.2.2 (List.mem_map_of_mem Prod.snd hmem) (by simp)

/-! ## C8: `AddAtomic` -/

/-- C8 (code defect).  The retry path `current = a , sum = a+b` reads the cell twice.
The cell starts at `0`; thread 0 calls `AddAtomic( a , 1 )`, thread 1 calls
`AddAtomic( a , 1 )`, `AddAtomic( a , 1 )`, `AddAtomic( a , -1 )`.  In the interleaving
below thread 0 loses its first compare-and-swap, re-reads `current = 1`, then, after
thread 1 has made the cell `2`, reads `sum = 2+1`, and, after thread 1 has brought the
cell back to `1`, swaps in `3`.  All calls have returned and the cell holds `3`, while
the initial value plus all deltas is `2`; so for a 4-byte and for an 8-byte integer. -/
theorem C8_retry_reads_cell_twice :
    addRun 4 [0, 1, 1, 0, 0, 1, 1, 0, 1, 1, 0]
        ⟨0, [⟨AddPc.idle, [1]⟩, ⟨AddPc.idle, [1, 1, -1]⟩]⟩
      = some ⟨3, [⟨AddPc.idle, []⟩, ⟨AddPc.idle, []⟩]⟩
    ∧ addRun 8 [0, 1, 1, 0, 0, 1, 1, 0, 1, 1, 0]
        ⟨0, [⟨AddPc.idle, [1]⟩, ⟨AddPc.idle, [1, 1, -1]⟩]⟩
      = some ⟨3, [⟨AddPc.idle, []⟩, ⟨AddPc.idle, []⟩]⟩
    ∧ wrapAdd 4 0 (1 + (1 + 1 + -1)) = 2 ∧ wrapAdd 8 0 (1 + (1 + 1 + -1)) = 2 := by
  refine ⟨by decide, by decide, by decide, by decide⟩

/-! ## C10: the mutexes of the fallback -/

/-- The owner of a mutex after an owner has been set. -/
theorem owner_setOwner (s : FbState) (m m' : Mutex) (o : Option Nat) :
    (s.setOwner m o).owner m' = if m' = m then o else s.owner m' := by
  cases m <;> cases m' <;> simp [FbState.setOwner, FbState.owner]

/-- The threads after thread `t` has changed. -/
theorem threads_setThread (s : FbState) (t u : Nat) (th : FbThread) :
    (s.setThread t th).threads[u]?
      = if t = u then (if t < s.threads.length then some th else none) else s.threads[u]? := by
  unfold FbState.setThread
  exact List.getElem?_set

/-- Taking a free mutex keeps the invariant. -/
theorem FbInv_lock (s : FbState) (m : Mutex) (t : Nat) (th' : FbThread) (hinv : FbInv s)
    (hfree : s.owner m = none) (hh : th'.pc.holds = some m) :
    FbInv ((s.setOwner m (some t)).setThread t th') := by
  intro u th m' hu hm'
  rw [threads_setThread] at hu
  show (s.setOwner m (some t)).owner m' = some u
  rw [owner_setOwner]
  by_cases htu : t = u
  · rw [if_pos htu] at hu
    by_cases hlen : t < (s.setOwner m (some t)).threads.length
    · rw [if_pos hlen] at hu
      cases hu
      rw [hh] at hm'
      cases hm'
      rw [if_pos rfl, htu]
    · rw [if_neg hlen] at hu
      cases hu
  · rw [if_neg htu] at hu
    have hu' : s.threads[u]? = some th := by
      cases m <;> exact hu
    have := hinv u th m' hu' hm'
    by_cases hmm : m' = m
    · rw [hmm, hfree] at this
      cases this
    · rw [if_neg hmm]
      exact this

/-- A step inside a critical section keeps the invariant. -/
theorem FbInv_inside (s : FbState) (v : Nat) (t : Nat) (th th' : FbThread) (hinv : FbInv s)
    (ht : s.threads[t]? = some th) (hh : th'.pc.holds = th.pc.holds) :
    FbInv ({ s with value := v }.setThread t th') := by
  intro u th1 m' hu hm'
  rw [threads_setThread] at hu
  show s.owner m' = some u
  by_cases htu : t = u
  · rw [if_pos htu] at hu
    by_cases hlen : t < s.threads.length
    · rw [if_pos hlen] at hu
      cases hu
      rw [hh] at hm'
      exact htu ▸ hinv t th m' ht hm'
    · rw [if_neg hlen] at hu
      cases hu
  · rw [if_neg htu] at hu
    exact hinv u th1 m' hu hm'

/-- Releasing the mutex a thread holds keeps the invariant. -/
theorem FbInv_unlock (s : FbState) (m : Mutex) (t : Nat) (th th' : FbThread) (hinv : FbInv s)
    (ht : s.threads[t]? = some th) (hh : th.pc.holds = some m) (hh' : th'.pc.holds = none) :
    FbInv ((s.setOwner m none).setThread t th') := by
  intro u th1 m' hu hm'
  rw [threads_setThread] at hu
  show (s.setOwner m none).owner m' = some u
  rw [owner_setOwner]
  have hown := hinv t th m ht hh
  by_cases htu : t = u
  · rw [if_pos htu] at hu
    by_cases hlen : t < (s.setOwner m none).threads.length
    · rw [if_pos hlen] at hu
      cases hu
      rw [hh'] at hm'
      cases hm'
    · rw [if_neg hlen] at hu
      cases hu
  · rw [if_neg htu] at hu
    have hu' : s.threads[u]? = some th1 := by
      cases m <;> exact hu
    have := hinv u th1 m' hu' hm'
    by_cases hmm : m' = m
    · rw [hmm, hown] at this
      cases this
      exact absurd rfl htu
    · rw [if_neg hmm]
      exact this

/-- Every step of a thread keeps the invariant. -/
theorem FbInv_step (width : Nat) (s s' : FbState) (t : Nat) (hinv : FbInv s)
    (hstep : fbStep width s t = some s') : FbInv s' := by
  unfold fbStep at hstep
  cases hth : s.threads[t]? with
  | none => rw [hth] at hstep; cases hstep
  | some th =>
    rw [hth] at hstep
    obtain ⟨pc, todo, results⟩ := th
    cases pc with
    | idle =>
      cases todo with
      | nil => cases hstep
      | cons op rest =>
        cases op with
        | set newValue oldValue =>
          simp only [FbState.lock] at hstep
          by_cases hfree : s.owner Mutex.setAtomicMutex = none
          · rw [if_pos hfree] at hstep
            cases hstep
            exact FbInv_lock s _ t _ hinv hfree rfl
          · rw [if_neg hfree] at hstep
            cases hstep
        | add b =>
          simp only [FbState.lock] at hstep
          by_cases hfree : s.owner Mutex.addAtomicMutex = none
          · rw [if_pos hfree] at hstep
            cases hstep
            exact FbInv_lock s _ t _ hinv hfree rfl
          · rw [if_neg hfree] at hstep
            cases hstep
    | setTest newValue oldValue =>
      simp only at hstep
      by_cases hv : s.value = oldValue
      · rw [if_pos hv] at hstep
        cases hstep
        exact FbInv_inside s s.value t _ _ hinv hth rfl
      · rw [if_neg hv] at hstep
        cases hstep
        exact FbInv_inside s s.value t _ _ hinv hth rfl
    | setWrite newValue =>
      cases hstep
      exact FbInv_inside s newValue t _ _ hinv hth rfl
    | setReturn result =>
      cases hstep
      exact FbInv_unlock s _ t _ _ hinv hth rfl rfl
    | addRead b =>
      cases hstep
      exact FbInv_inside s s.value t _ _ hinv hth rfl
    | addWrite sum =>
      cases hstep
      exact FbInv_inside s sum t _ _ hinv hth rfl
    | addReturn =>
      cases hstep
      exact FbInv_unlock s _ t _ _ hinv hth rfl rfl

/-- The invariant holds at a start state. -/
theorem FbInv_initial (s : FbState) (h : s.initial) : FbInv s := by
  intro u th m hu hm
  have hmem : th ∈ s.threads := List.getElem?_mem hu
  rw [h.2.2 th hmem] at hm
  cases hm

/-- The invariant holds in every state reachable from a start state. -/
theorem FbInv_reachable (width : Nat) (s0 s : FbState) (h0 : s0.initial)
    (h : FbReachable width s0 s) : FbInv s := by
  induction h with
  | start => exact FbInv_initial s0 h0
  | step s t s' _ hstep ih => exact FbInv_step width s s' t ih hstep

/-- The state an interleaving ends in is reachable. -/
theorem fbRun_reachable (width : Nat) (s0 : FbState) (order : List Nat) :
    ∀ s s', FbReachable width s0 s → fbRun width order s = some s' →
      FbReachable width s0 s' := by
  induction order with
  | nil =>
    intro s s' hs h
    simp only [fbRun, Option.some.injEq] at h
    exact h ▸ hs
  | cons t order ih =>
    intro s s' hs h
    simp only [fbRun] at h
    cases hstep : fbStep width s t with
    | none => rw [hstep] at h; exact absurd h (by simp)
    | some s1 =>
      rw [hstep] at h
      exact ih s1 s' (FbReachable.step s t s1 hs hstep) h

/-- For every value type whose width is neither 4 nor 8, the fallback of `SetAtomic`
locks `setAtomicMutex` and the fallback of `AddAtomic` locks `addAtomicMutex`, which is
another mutex; in every state that threads running fallback calls on one cell can reach,
two threads that hold the same mutex are the same thread.  So each mutex excludes the
calls of its own function only. -/
theorem fallback_mutex_exclusive (width : Nat) (hw4 : width ≠ 4) (hw8 : width ≠ 8)
    (s0 s : FbState) (h0 : s0.initial) (hs : FbReachable width s0 s) :
    SetAtomic_mutex width = some Mutex.setAtomicMutex
    ∧ AddAtomic_mutex width = some Mutex.addAtomicMutex
    ∧ SetAtomic_mutex width ≠ AddAtomic_mutex width
    ∧ ∀ (u v : Nat) (thu thv : FbThread) (m : Mutex),
        s.threads[u]? = some thu → s.threads[v]? = some thv →
        thu.pc.holds = some m → thv.pc.holds = some m → u = v := by
  have h1 : SetAtomic_mutex width = some Mutex.setAtomicMutex := by
    unfold SetAtomic_mutex
    split
    · exact absurd rfl hw4
    · exact absurd rfl hw8
    · rfl
  have h2 : AddAtomic_mutex width = some Mutex.addAtomicMutex := by
    unfold AddAtomic_mutex
    split
    · exact absurd rfl hw4
    · exact absurd rfl hw8
    · rfl
  refine ⟨h1, h2, by rw [h1, h2]; simp, ?_⟩
  intro u v thu thv m hu hv hmu hmv
  have hinv := FbInv_reachable width s0 s h0 hs
  have e1 := hinv u thu m hu hmu
  have e2 := hinv v thv m hv hmv
  rw [e1] at e2
  exact Option.some.inj e2

/-- The lemma `fallback_mutex_exclusive` for a 3-byte type and two threads that both
call the fallback of `SetAtomic`: after thread 0 has taken the lock, thread 1 cannot
step. -/
theorem fallback_mutex_exclusive_three_bytes :
    fbStep 3 ⟨0, some 0, none, [⟨FbPc.setTest 7 0, [], []⟩, ⟨FbPc.idle, [FbOp.set 9 0], []⟩]⟩ 1
      = none
    ∧ SetAtomic_mutex 3 ≠ AddAtomic_mutex 3
    ∧ ∀ (u v : Nat) (thu thv : FbThread) (m : Mutex),
        [(⟨FbPc.setTest 7 0, [], []⟩ : FbThread), ⟨FbPc.idle, [FbOp.set 9 0], []⟩][u]?
          = some thu →
        [(⟨FbPc.setTest 7 0, [], []⟩ : FbThread), ⟨FbPc.idle, [FbOp.set 9 0], []⟩][v]?
          = some thv →
        thu.pc.holds = some m → thv.pc.holds = some m → u = v := by
  have h := fallback_mutex_exclusive 3 (by decide) (by decide)
    ⟨0, none, none, [⟨FbPc.idle, [FbOp.set 7 0], []⟩, ⟨FbPc.idle, [FbOp.set 9 0], []⟩]⟩
    ⟨0, some 0, none, [⟨FbPc.setTest 7 0, [], []⟩, ⟨FbPc.idle, [FbOp.set 9 0], []⟩]⟩
    ⟨rfl, rfl, by intro th hth; simp at hth; rcases hth with rfl | rfl <;> rfl⟩
    (fbRun_reachable 3 _ [0] _ _ FbReachable.start (by decide))
  exact ⟨by decide, h.2.2.1, h.2.2.2⟩

/-- C10 (code defect).  For a 3-byte type the fallback of `SetAtomic` locks
`setAtomicMutex` and the fallback of `AddAtomic` locks `addAtomicMutex`, two different
mutexes, so a fallback add and a fallback compare-and-swap on the same cell overlap.
The cell starts at `0`, thread 0 calls `AddAtomic( a , 5 )` and thread 1 calls
`SetAtomic( &a , 7 , 0 )`.  After the steps `0, 0, 1, 1` thread 0 has read `0` and stands
before its write while thread 1 has passed its test and stands before its write, each
holding its own mutex; after the steps `1, 1, 0, 0` both calls have returned, the
compare-and-swap has reported success, and the cell holds `5`: the stored `7` is lost.
Neither order of the two calls one after the other gives this: the add first leaves `5`
with the compare-and-swap failing, the compare-and-swap first leaves `12` with it
succeeding. -/
theorem C10_add_and_cas_overlap :
    SetAtomic_mutex 3 = some Mutex.setAtomicMutex
    ∧ AddAtomic_mutex 3 = some Mutex.addAtomicMutex
    ∧ SetAtomic_mutex 3 ≠ AddAtomic_mutex 3
    ∧ fbRun 3 [0, 0, 1, 1]
        ⟨0, none, none, [⟨FbPc.idle, [FbOp.add 5], []⟩, ⟨FbPc.idle, [FbOp.set 7 0], []⟩]⟩
      = some ⟨0, some 1, some 0, [⟨FbPc.addWrite 5, [], []⟩, ⟨FbPc.setWrite 7, [], []⟩]⟩
    ∧ fbRun 3 [1, 1, 0, 0]
        ⟨0, some 1, some 0, [⟨FbPc.addWrite 5, [], []⟩, ⟨FbPc.setWrite 7, [], []⟩]⟩
      = some ⟨5, none, none, [⟨FbPc.idle, [], []⟩, ⟨FbPc.idle, [], [true]⟩]⟩
    ∧ fbRun 3 [0, 0, 0, 0, 1, 1, 1]
        ⟨0, none, none, [⟨FbPc.idle, [FbOp.add 5], []⟩, ⟨FbPc.idle, [FbOp.set 7 0], []⟩]⟩
      = some ⟨5, none, none, [⟨FbPc.idle, [], []⟩, ⟨FbPc.idle, [], [false]⟩]⟩
    ∧ fbRun 3 [1, 1, 1, 1, 0, 0, 0, 0]
        ⟨0, none, none, [⟨FbPc.idle, [FbOp.add 5], []⟩, ⟨FbPc.idle, [FbOp.set 7 0], []⟩]⟩
      = some ⟨12, none, none, [⟨FbPc.idle, [], []⟩, ⟨FbPc.idle, [], [true]⟩]⟩ := by
  refine ⟨by decide, by decide, by decide, by decide, by decide, by decide, by decide⟩

/-! ## C11: the empty range and the shortcut -/

/-- The shortcut of `Parallel_for`: the whole range on the invoking thread with thread id
`0`, and no write to the static members. -/
theorem Parallel_for_shortcut (fuel : Nat) (p : Pool) (begin end_ f : Nat)
    (schedule : ScheduleType) (chunkSize : Nat)
    (hlt : begin < end_) (hend : end_ < SIZE) (hcs : 1 ≤ chunkSize)
    (hshort : end_ - begin < chunkSize ∨ p._ParallelType = ParallelType.NONE
      ∨ NumThreads p = 1)
    (hfuel : end_ - begin < fuel) :
    Parallel_for fuel p begin end_ f schedule chunkSize
      = some { Outcome.idle p with calls := rangeCalls begin end_ 0 } := by
  obtain ⟨n, hn⟩ := chunks_some (end_ - begin) chunkSize hcs
  unfold Parallel_for
  rw [if_neg (by omega)]
  simp only [hn]
  rw [if_pos hshort, forLoop_seq 0 end_ hend fuel begin hfuel]
  rfl

/-- C11 (confirmed).  For every `begin ≥ end`, `Parallel_for` returns at once: it makes
no call of the iteration function, runs no `_ThreadFunction`, and writes nothing.  For
all `size_t` values `begin < end` and every `chunkSize ≥ 1` such that
`end-begin < chunkSize`, or the strategy is `NONE`, or `NumThreads() == 1`, the call runs
to its end (with fuel above `end-begin`) and the calls it makes are exactly
`f(0,begin), f(0,begin+1), ..., f(0,end-1)` on the invoking thread; nobody else is started
or woken, no warning is given, and the static members (`_ThreadFunction` and
`_RemainingTasks` among them) are unchanged. -/
theorem C11_empty_range_and_shortcut (fuel : Nat) (p : Pool) (begin end_ f : Nat)
    (schedule : ScheduleType) (chunkSize : Nat) :
    (end_ ≤ begin →
      ∃ o : Outcome, Parallel_for fuel p begin end_ f schedule chunkSize = some o
        ∧ o.calls = [] ∧ o.inline = [] ∧ o.async = [] ∧ o.notified = []
        ∧ o.waited = false ∧ o.warned = false ∧ o.pool = p)
    ∧ (begin < end_ → end_ < SIZE → 1 ≤ chunkSize →
        (end_ - begin < chunkSize ∨ p._ParallelType = ParallelType.NONE
          ∨ NumThreads p = 1) →
        end_ - begin < fuel →
        ∃ o : Outcome, Parallel_for fuel p begin end_ f schedule chunkSize = some o
          ∧ o.calls = (List.range' begin (end_ - begin)).map (fun i => (0, i))
          ∧ o.inline = [] ∧ o.async = [] ∧ o.notified = []
          ∧ o.waited = false ∧ o.warned = false ∧ o.pool = p
          ∧ o.pool._ThreadFunction = p._ThreadFunction
          ∧ o.pool._RemainingTasks = p._RemainingTasks) := by
  constructor
  · intro hle
    refine ⟨Outcome.idle p, ?_, rfl, rfl, rfl, rfl, rfl, rfl, rfl⟩
    unfold Parallel_for
    rw [if_pos hle]
  · intro hlt hend hcs hshort hfuel
    exact ⟨_, Parallel_for_shortcut fuel p begin end_ f schedule chunkSize hlt hend hcs
      hshort hfuel, rfl, rfl, rfl, rfl, rfl, rfl, rfl, rfl, rfl⟩

/-- C11 after `Init( THREAD_POOL , 4 )`: the empty range `[7,7)`, and the range `[0,50)`
with `chunkSize = 100`. -/
theorem C11_empty_range_and_shortcut_witness :
    (∃ o : Outcome,
      Parallel_for 0 (Init Pool.start ParallelType.THREAD_POOL 4) 7 7 0 ScheduleType.DYNAMIC 100
        = some o
      ∧ o.calls = [] ∧ o.inline = [] ∧ o.async = [] ∧ o.notified = []
      ∧ o.waited = false ∧ o.warned = false
      ∧ o.pool = Init Pool.start ParallelType.THREAD_POOL 4)
    ∧ ∃ o : Outcome,
        Parallel_for 51 (Init Pool.start ParallelType.THREAD_POOL 4) 0 50 0
          ScheduleType.DYNAMIC 100 = some o
        ∧ o.calls = (List.range' 0 (50 - 0)).map (fun i => (0, i))
        ∧ o.inline = [] ∧ o.async = [] ∧ o.notified = []
        ∧ o.waited = false ∧ o.warned = false
        ∧ o.pool = Init Pool.start ParallelType.THREAD_POOL 4
        ∧ o.pool._ThreadFunction = (Init Pool.start ParallelType.THREAD_POOL 4)._ThreadFunction
        ∧ o.pool._RemainingTasks
            = (Init Pool.start ParallelType.THREAD_POOL 4)._RemainingTasks :=
  ⟨(C11_empty_range_and_shortcut 0 (Init Pool.start ParallelType.THREAD_POOL 4) 7 7 0
      ScheduleType.DYNAMIC 100).1 (by decide),
   (C11_empty_range_and_shortcut 51 (Init Pool.start ParallelType.THREAD_POOL 4) 0 50 0
      ScheduleType.DYNAMIC 100).2 (by decide) (by decide) (by decide)
      (Or.inl (by decide)) (by decide)⟩

/-! ## C13 and C16: `Init`, `NumThreads` and `Terminate` -/

/-- `resize` gives the vector the requested size. -/
theorem length_resize (ts : List (Option Nat)) (n : Nat) : (resize ts n).length = n := by
  unfold resize
  rw [List.length_append, List.length_take, List.length_replicate]
  omega

/-- The number of thread objects after `Init`. -/
theorem length_Threads_Init (p : Pool) (parallelType : ParallelType) (numThreads : Nat) :
    (Init p parallelType numThreads)._Threads.length = (numThreads + UINT - 1) % UINT := by
  unfold Init
  by_cases h : parallelType = ParallelType.THREAD_POOL
  · simp only [h, if_true, List.length_map, List.length_range, length_resize]
  · simp only [h, if_false, length_resize]

/-- C13 (confirmed).  For every strategy, every `unsigned int` value `numThreads ≥ 1` and
every state of the static members before the call, after `Init( strategy , numThreads )`
the call `NumThreads()` returns `numThreads`: there are `numThreads - 1` thread objects
in `_Threads`, and one more is counted for the caller. -/
theorem C13_NumThreads_after_Init (p : Pool) (parallelType : ParallelType) (numThreads : Nat)
    (h1 : 1 ≤ numThreads) (h2 : numThreads < UINT) :
    NumThreads (Init p parallelType numThreads) = numThreads
    ∧ (Init p parallelType numThreads)._Threads.length + 1 = numThreads := by
  have hlen := length_Threads_Init p parallelType numThreads
  have hm : (numThreads + UINT - 1) % UINT = numThreads - 1 := by
    have : numThreads + UINT - 1 = (numThreads - 1) + UINT := by omega
    rw [this, Nat.add_mod_right, Nat.mod_eq_of_lt (by omega)]
  unfold NumThreads
  rw [hlen, hm, Nat.mod_eq_of_lt (by omega : numThreads - 1 < UINT)]
  have : numThreads - 1 + 1 = numThreads := by omega
  rw [this, Nat.mod_eq_of_lt h2]
  exact ⟨rfl, rfl⟩

/-- C13 for `Init( ASYNC , 3 )` called on the running pool of `Init( THREAD_POOL , 8 )`. -/
theorem C13_NumThreads_after_Init_witness :
    NumThreads (Init (Init Pool.start ParallelType.THREAD_POOL 8) ParallelType.ASYNC 3) = 3
    ∧ (Init (Init Pool.start ParallelType.THREAD_POOL 8) ParallelType.ASYNC 3)._Threads.length
        + 1 = 3 :=
  C13_NumThreads_after_Init (Init Pool.start ParallelType.THREAD_POOL 8) ParallelType.ASYNC 3
    (by decide) (by decide)

/-- C16 (confirmed).  For every state of the static members (close flag, thread
objects, strategy, counter, stored job), `Terminate()` after `Terminate()` gives the
state that one `Terminate()` gives; and when `_Threads` is empty `Terminate()` leaves the
state as it is. -/
theorem C16_Terminate_idempotent (p : Pool) :
    Terminate (Terminate p) = Terminate p ∧ (p._Threads = [] → Terminate p = p) := by
  constructor
  · unfold Terminate
    by_cases h : p._Threads.length ≠ 0 ∧ p._Close = false
    · rw [if_pos h]
      simp
    · rw [if_neg h, if_neg h]
  · intro h
    unfold Terminate
    rw [if_neg (by simp [h])]

/-- C16 on the running pool of `Init( THREAD_POOL , 4 )`, and on the state at program
start, where `_Threads` is empty. -/
theorem C16_Terminate_idempotent_witness :
    Terminate (Terminate (Init Pool.start ParallelType.THREAD_POOL 4))
        = Terminate (Init Pool.start ParallelType.THREAD_POOL 4)
    ∧ Terminate Pool.start = Pool.start :=
  ⟨(C16_Terminate_idempotent (Init Pool.start ParallelType.THREAD_POOL 4)).1,
   (C16_Terminate_idempotent Pool.start).2 rfl⟩

/-! ## C15: `ParallelSections` -/

/-- The recursion of `_ParallelSections` starts one task per function, in order, in the
slots that follow one another. -/
theorem _ParallelSections_eq (functions : List Nat) :
    ∀ futures, _ParallelSections futures functions
      = List.zipWith SectionEvent.launch (List.range' futures functions.length) functions := by
  induction functions with
  | nil => intro futures; rfl
  | cons f fs ih =>
    intro futures
    cases fs with
    | nil => rfl
    | cons g fs =>
      rw [_ParallelSections, ih (futures + 1)]
      simp [List.range'_succ]

/-- C15 (confirmed).  For every `k ≥ 1`, closures `f1..fk` and every state of the static
members (every strategy and thread count), `ParallelSections( f1 , ... , fk )` first
starts `k` tasks with `std::async( std::launch::async , · )`, the task of slot `i` for
the closure `f(i+1)`, one task per closure in the order of the arguments, and then calls
`get()` on the slots `0, ..., k-1`: it returns only after it has waited for each of the
`k` tasks.  It neither reads nor writes a static member. -/
theorem C15_ParallelSections (p : Pool) (functions : List Nat) (hk : 1 ≤ functions.length) :
    ∃ evs : List SectionEvent,
      ParallelSections p functions = some (evs, p)
      ∧ evs = List.zipWith SectionEvent.launch (List.range functions.length) functions
          ++ (List.range functions.length).map SectionEvent.get
      ∧ (evs.take functions.length).length = functions.length
      ∧ (∀ i f, functions[i]? = some f → evs[i]? = some (SectionEvent.launch i f))
      ∧ (∀ i, i < functions.length →
          evs[functions.length + i]? = some (SectionEvent.get i))
      ∧ evs.length = 2 * functions.length := by
  cases hfs : functions with
  | nil => rw [hfs] at hk; simp at hk
  | cons f fs =>
    have hlen : (List.zipWith SectionEvent.launch (List.range (f :: fs).length) (f :: fs)).length
        = (f :: fs).length := by
      rw [List.length_zipWith, List.length_range, Nat.min_self]
    refine ⟨_, ?_, rfl, ?_, ?_, ?_, ?_⟩
    · unfold ParallelSections
      rw [_ParallelSections_eq, List.range_eq_range']
    · rw [List.length_take, List.length_append, hlen]
      omega
    · intro i g hg
      have hi : i < (f :: fs).length := (List.getElem?_eq_some_iff.mp hg).1
      rw [List.getElem?_append_left (by rw [hlen]; exact hi), List.getElem?_zipWith, hg,
        List.getElem?_range hi]
    · intro i hi
      rw [List.getElem?_append_right (by rw [hlen]; omega), hlen, Nat.add_sub_cancel_left,
        List.getElem?_map, List.getElem?_range hi]
      rfl
    · rw [List.length_append, hlen, List.length_map, List.length_range]
      omega

/-- C15 for three closures, named 10, 11 and 12, after `Init( NONE , 1 )`. -/
theorem C15_ParallelSections_witness :
    ∃ evs : List SectionEvent,
      ParallelSections (Init Pool.start ParallelType.NONE 1) [10, 11, 12]
        = some (evs, Init Pool.start ParallelType.NONE 1)
      ∧ evs = [SectionEvent.launch 0 10, SectionEvent.launch 1 11, SectionEvent.launch 2 12,
          SectionEvent.get 0, SectionEvent.get 1, SectionEvent.get 2] := by
  obtain ⟨evs, h1, h2, _⟩ :=
    C15_ParallelSections (Init Pool.start ParallelType.NONE 1) [10, 11, 12] (by decide)
  exact ⟨evs, h1, h2⟩

/-! ## C14: the warning of the reentrancy guard -/

/-- While the counter is not zero, `k` calls that reach the guard warn `k` times and
leave the counter as it is. -/
theorem Parallel_for_seq_fallback (fuel : Nat) (a : Args) (r : Nat)
    (hlt : a.begin < a.end_) (hend : a.end_ < SIZE) (hcs : 1 ≤ a.chunkSize)
    (hge : a.chunkSize ≤ a.end_ - a.begin) (hfuel : a.end_ - a.begin < fuel) (hr : r ≠ 0) :
    ∀ (k : Nat) (p : Pool) (sink : Nat),
      p._ParallelType = ParallelType.THREAD_POOL → NumThreads p ≠ 1 → p._RemainingTasks = r →
      ∃ p' : Pool, Parallel_for_seq fuel (List.replicate k a) p sink = some (p', sink + k)
        ∧ p'._RemainingTasks = r := by
  intro k
  induction k with
  | zero => intro p sink _ _ hp; exact ⟨p, rfl, hp⟩
  | succ k ih =>
    intro p sink htype hth hp
    obtain ⟨n, hn⟩ := chunks_some (a.end_ - a.begin) a.chunkSize hcs
    have hcall := Parallel_for_pool_fallback fuel p a.begin a.end_ a.iterationFunction
      a.schedule a.chunkSize n htype hth hlt hend hge hn (by rw [hp]; exact hr) hfuel
    obtain ⟨p', hseq, hp'⟩ := ih
      { p with _ThreadFunction := some (Job.mk a.schedule a.iterationFunction a.begin a.end_
          a.chunkSize n (NumThreads p)) } (WARN sink) htype hth hp
    refine ⟨p', ?_, hp'⟩
    rw [List.replicate_succ, Parallel_for_seq, hcall]
    simp only [Outcome.idle, if_true]
    rw [hseq]
    unfold WARN
    rw [Nat.add_assoc, Nat.add_comm 1 k]

/-- C14 (code defect).  The guard failure of `Parallel_for` warns with `WARN`, which has
no flag, not with `WARN_ONCE`.  With a job in flight after `Init( THREAD_POOL , 4 )`
(`_RemainingTasks = 3`), `k` calls `Parallel_for( 0 , 1000 , f , STATIC , 100 )` in a
row all fail the guard and write `k` messages, two of them for `k = 2`; the same number
of executions of one `WARN_ONCE`, as in the fallback of `SetAtomic`, writes one. -/
theorem C14_guard_failure_warns_every_time :
    (∀ k, ∃ p' : Pool,
      Parallel_for_seq 1001 (List.replicate k ⟨0, 1000, 0, ScheduleType.STATIC, 100⟩)
          { Init Pool.start ParallelType.THREAD_POOL 4 with _RemainingTasks := 3 } 0
        = some (p', k)
      ∧ p'._RemainingTasks = 3)
    ∧ (∃ p' : Pool,
      Parallel_for_seq 1001 [⟨0, 1000, 0, ScheduleType.STATIC, 100⟩,
            ⟨0, 1000, 0, ScheduleType.STATIC, 100⟩]
          { Init Pool.start ParallelType.THREAD_POOL 4 with _RemainingTasks := 3 } 0
        = some (p', 2))
    ∧ WARN_ONCE (WARN_ONCE true 0).1 (WARN_ONCE true 0).2 = (false, 1) := by
  have h := Parallel_for_seq_fallback 1001 ⟨0, 1000, 0, ScheduleType.STATIC, 100⟩ 3
    (by decide) (by decide) (by decide) (by decide) (by decide) (by decide)
  have hk : ∀ k, ∃ p' : Pool,
      Parallel_for_seq 1001 (List.replicate k ⟨0, 1000, 0, ScheduleType.STATIC, 100⟩)
          { Init Pool.start ParallelType.THREAD_POOL 4 with _RemainingTasks := 3 } 0
        = some (p', k)
      ∧ p'._RemainingTasks = 3 := by
    intro k
    obtain ⟨p', h1, h2⟩ := h k
      { Init Pool.start ParallelType.THREAD_POOL 4 with _RemainingTasks := 3 } 0
      (by decide) (by decide) rfl
    rw [Nat.zero_add] at h1
    exact ⟨p', h1, h2⟩
  refine ⟨hk, ?_, by decide⟩
  obtain ⟨p', h1, _⟩ := hk 2
  exact ⟨p', h1⟩

/-! ## C12: thread ids -/

/-- In a configured state `NumThreads()` is `_Threads.size()+1`, without wrap. -/
theorem NumThreads_configured (p : Pool) (h : p.configured) :
    NumThreads p = p._Threads.length + 1 := by
  have h1 := h.1
  unfold NumThreads
  rw [Nat.mod_eq_of_lt (by omega : p._Threads.length < UINT), Nat.mod_eq_of_lt h1]

/-- The state at program start is configured. -/
theorem configured_start : Pool.start.configured := by
  refine ⟨?_, fun _ => rfl⟩
  show [].length + 1 < UINT
  decide

/-- `Init` with `1 ≤ numThreads`, an `unsigned int`, gives a configured state, whatever
the state before. -/
theorem configured_Init (p : Pool) (parallelType : ParallelType) (numThreads : Nat)
    (h1 : 1 ≤ numThreads) (h2 : numThreads < UINT) :
    (Init p parallelType numThreads).configured := by
  have hlen := length_Threads_Init p parallelType numThreads
  have hm : (numThreads + UINT - 1) % UINT = numThreads - 1 := by
    have : numThreads + UINT - 1 = (numThreads - 1) + UINT := by omega
    rw [this, Nat.add_mod_right, Nat.mod_eq_of_lt (by omega)]
  refine ⟨by rw [hlen, hm]; omega, ?_⟩
  unfold Init
  by_cases h : parallelType = ParallelType.THREAD_POOL
  · intro _
    simp only [h, if_true, List.length_map, List.length_range]
  · intro hp
    simp only [h, if_false] at hp

/-- `Terminate` keeps a state configured. -/
theorem configured_Terminate (p : Pool) (h : p.configured) : (Terminate p).configured := by
  unfold Terminate
  by_cases hc : p._Threads.length ≠ 0 ∧ p._Close = false
  · rw [if_pos hc]
    refine ⟨?_, fun _ => rfl⟩
    show [].length + 1 < UINT
    decide
  · rw [if_neg hc]
    exact h

/-- The workers of a configured pool have the ids `0, ..., _Threads.size()-1`. -/
theorem workers_configured (p : Pool) (h : p.configured)
    (hp : p._ParallelType = ParallelType.THREAD_POOL) :
    workers p = List.range p._Threads.length := by
  unfold workers
  rw [h.2 hp, List.filterMap_map]
  simp

/-- What holds of every call of the body holds of every call of the loop. -/
theorem forLoop_forall (P : Call → Prop) (body : Nat → Option (List Call)) (bound step : Nat)
    (hbody : ∀ x l, body x = some l → ∀ c, c ∈ l → P c) :
    ∀ fuel x l, forLoop body bound step fuel x = some l → ∀ c, c ∈ l → P c := by
  intro fuel
  induction fuel with
  | zero => intro x l h; simp [forLoop] at h
  | succ fuel ih =>
    intro x l h c hc
    unfold forLoop at h
    by_cases hx : x < bound
    · rw [if_pos hx] at h
      cases hb : body x with
      | none => rw [hb] at h; simp at h
      | some a =>
        cases hr : forLoop body bound step fuel ((x + step) % SIZE) with
        | none => rw [hb, hr] at h; simp at h
        | some b =>
          rw [hb, hr] at h
          simp only [Option.some.injEq] at h
          subst h
          rw [List.mem_append] at hc
          rcases hc with hc | hc
          · exact hbody x a hb c hc
          · exact ih _ b hr c hc
    · rw [if_neg hx] at h
      simp only [Option.some.injEq] at h
      subst h
      simp at hc

/-- Every call made by `_ChunkFunction( thread , chunk )` carries `thread`. -/
theorem ChunkFunction_thread (fuel begin end_ chunkSize thread chunk : Nat) (l : List Call)
    (h : ChunkFunction fuel begin end_ chunkSize thread chunk = some l) :
    ∀ c, c ∈ l → c.1 = thread := by
  unfold ChunkFunction at h
  refine forLoop_forall (fun c => c.1 = thread) _ _ _ ?_ fuel _ l h
  intro x a ha c hc
  simp only [Option.some.injEq] at ha
  subst ha
  rw [List.mem_singleton] at hc
  rw [hc]

/-- Every call made by `_StaticThreadFunction( thread )` carries `thread`. -/
theorem StaticThreadFunction_thread (fuel begin end_ chunkSize chunks threads thread : Nat)
    (l : List Call)
    (h : StaticThreadFunction fuel begin end_ chunkSize chunks threads thread = some l) :
    ∀ c, c ∈ l → c.1 = thread := by
  unfold StaticThreadFunction at h
  exact forLoop_forall (fun c => c.1 = thread) _ _ _
    (fun x a ha => ChunkFunction_thread fuel begin end_ chunkSize thread x a ha) fuel _ l h

/-- Only the threads `0, ..., w-1` claim chunks of a dynamic job. -/
theorem dyn_claimed_lt (chunks w : Nat) (s : DynState) (h : DynReachable chunks w s) :
    s.stopped.length = w ∧ ∀ tc, tc ∈ s.claimed → tc.1 < w := by
  induction h with
  | init => exact ⟨by simp [DynState.init], by simp [DynState.init]⟩
  | step s t s' _ hstep ih =>
    unfold dynStep at hstep
    by_cases hrun : s.stopped[t]? = some false
    · rw [if_pos hrun] at hstep
      have htw : t < w := by
        have := (List.getElem?_eq_some_iff.mp hrun).1
        omega
      by_cases hc : s.index < chunks
      · simp only [hc, if_true, Option.some.injEq] at hstep
        subst hstep
        refine ⟨ih.1, ?_⟩
        intro tc htc
        rw [List.mem_append, List.mem_singleton] at htc
        rcases htc with h | h
        · exact ih.2 tc h
        · rw [h]; exact htw
      · simp only [hc, if_false, Option.some.injEq] at hstep
        subst hstep
        exact ⟨by simp [ih.1], ih.2⟩
    · rw [if_neg hrun] at hstep
      exact absurd hstep (by simp)

/-- Being configured depends on the thread objects and the strategy only. -/
theorem configured_congr (p q : Pool) (h1 : q._Threads = p._Threads)
    (h2 : q._ParallelType = p._ParallelType) (h : p.configured) : q.configured := by
  unfold Pool.configured at h ⊢
  rw [h1, h2]
  exact h

/-- `NumThreads()` depends on the thread objects only. -/
theorem NumThreads_congr (p q : Pool) (h1 : q._Threads = p._Threads) :
    NumThreads q = NumThreads p := by
  unfold NumThreads
  rw [h1]

/-- Every call of `Parallel_for` on a configured pool, with `chunkSize ≥ 1`, runs to its
end for fuel above `end-begin`; its own loops call with thread id `0`, and the ids with
which `_ThreadFunction` is called are `0, ..., w-1` for some `w ≤ NumThreads()`. -/
theorem Parallel_for_ids (fuel : Nat) (p : Pool) (begin end_ f : Nat)
    (schedule : ScheduleType) (chunkSize : Nat)
    (hc : p.configured) (hcs : 1 ≤ chunkSize) (hend : end_ < SIZE)
    (hfuel : end_ - begin < fuel) :
    ∃ (o : Outcome) (w : Nat), Parallel_for fuel p begin end_ f schedule chunkSize = some o
      ∧ o.pool.configured ∧ NumThreads o.pool = NumThreads p
      ∧ (∀ c, c ∈ o.calls → c.1 = 0)
      ∧ runners o = List.range w ∧ w ≤ NumThreads p := by
  have hnt := NumThreads_configured p hc
  have hzero : ∀ c : Call, c ∈ rangeCalls begin end_ 0 → c.1 = 0 := by
    intro c hmem
    unfold rangeCalls at hmem
    rw [List.mem_map] at hmem
    obtain ⟨i, _, rfl⟩ := hmem
    rfl
  by_cases hle : end_ ≤ begin
  · refine ⟨Outcome.idle p, 0, ?_, hc, rfl, by simp [Outcome.idle], rfl, Nat.zero_le _⟩
    unfold Parallel_for
    rw [if_pos hle]
  · have hlt : begin < end_ := by omega
    by_cases hshort : end_ - begin < chunkSize ∨ p._ParallelType = ParallelType.NONE
        ∨ NumThreads p = 1
    · exact ⟨_, 0, Parallel_for_shortcut fuel p begin end_ f schedule chunkSize hlt hend hcs
        hshort hfuel, hc, rfl, hzero, rfl, Nat.zero_le _⟩
    · obtain ⟨n, hn⟩ := chunks_some (end_ - begin) chunkSize hcs
      have hge : chunkSize ≤ end_ - begin := by omega
      have hth : NumThreads p ≠ 1 := fun h => hshort (Or.inr (Or.inr h))
      cases htype : p._ParallelType with
      | NONE => exact absurd (Or.inr (Or.inl htype)) hshort
      | ASYNC =>
        have hnot : p._ParallelType ≠ ParallelType.THREAD_POOL := by
          rw [htype]
          decide
        exact ⟨_, NumThreads p, Parallel_for_async fuel p begin end_ f schedule chunkSize n
          htype hth hlt hge hn, ⟨hc.1, fun h => absurd h hnot⟩, rfl,
          by simp [Outcome.idle], async_ids (NumThreads p) (by omega), Nat.le_refl _⟩
      | THREAD_POOL =>
        by_cases hr : p._RemainingTasks = 0
        · have hd := Parallel_for_pool_dispatch fuel p begin end_ f schedule chunkSize n htype
            hth hlt hge hn hr
          generalize (NumThreads p + UINT - 1) % UINT = r at hd
          refine ⟨_, p._Threads.length, hd, ?_, ?_, ?_, ?_, by omega⟩
          · dsimp only [Outcome.idle]
            exact ⟨hc.1, hc.2⟩
          · unfold NumThreads
            dsimp only [Outcome.idle]
          · intro c hmem
            exact absurd hmem (List.not_mem_nil c)
          · unfold runners
            dsimp only [Outcome.idle]
            rw [workers_configured p hc htype]
            rfl
        · exact ⟨_, 0, Parallel_for_pool_fallback fuel p begin end_ f schedule chunkSize n htype
            hth hlt hend hge hn hr hfuel, ⟨hc.1, hc.2⟩, rfl, hzero, rfl, Nat.zero_le _⟩

/-- C12 (confirmed).  The states of the static members considered are the configured
ones: the state at program start, every state that `Init( strategy , numThreads )` with
an `unsigned int` value `numThreads ≥ 1` leaves, whatever the state before, and what
`Terminate` and `Parallel_for` make of them.  On such a state, for every strategy, every
schedule, all `size_t` values `begin`, `end` and every `chunkSize ≥ 1`, the call
`Parallel_for` runs to its end (with fuel above `end-begin`) and on each of its paths:
the calls of its own loops (shortcut, guard failure) carry thread id `0`, which is below
`NumThreads()`; `_ThreadFunction` is called with the ids `0, ..., w-1` for some
`w ≤ NumThreads()`; a thread that runs the static loop passes its own id to every call
of the iteration function; and in every reachable state of the dynamic loop run by
these `w` threads, every chunk is claimed by a thread below `NumThreads()`, whose
`_ChunkFunction` passes that id to every call.  So every thread id passed to the
iteration function is below `NumThreads()`. -/
theorem C12_thread_ids_in_range :
    (Pool.start.configured
      ∧ (∀ (p : Pool) (parallelType : ParallelType) (numThreads : Nat),
          1 ≤ numThreads → numThreads < UINT → (Init p parallelType numThreads).configured)
      ∧ (∀ p : Pool, p.configured → (Terminate p).configured))
    ∧ ∀ (fuel : Nat) (p : Pool) (begin end_ f : Nat) (schedule : ScheduleType)
        (chunkSize : Nat),
        p.configured → 1 ≤ chunkSize → end_ < SIZE → end_ - begin < fuel →
        ∃ (o : Outcome) (w : Nat),
          Parallel_for fuel p begin end_ f schedule chunkSize = some o
          ∧ o.pool.configured ∧ NumThreads o.pool = NumThreads p
          ∧ (∀ c, c ∈ o.calls → c.1 = 0 ∧ c.1 < NumThreads p)
          ∧ runners o = List.range w ∧ w ≤ NumThreads p
          ∧ (∀ t, t ∈ runners o → t < NumThreads p)
          ∧ (∀ (job : Job) (t fuel' : Nat) (l : List Call),
              o.pool._ThreadFunction = some job → t ∈ runners o →
              ThreadFunction fuel' job t = some l → ∀ c, c ∈ l → c.1 = t ∧ c.1 < NumThreads p)
          ∧ (∀ (chunks : Nat) (s : DynState), DynReachable chunks w s →
              ∀ tc, tc ∈ s.claimed →
                tc.1 ∈ runners o ∧ tc.1 < NumThreads p
                ∧ ∀ (fuel' b e cs : Nat) (l : List Call),
                    ChunkFunction fuel' b e cs tc.1 tc.2 = some l →
                    ∀ c, c ∈ l → c.1 = tc.1 ∧ c.1 < NumThreads p) := by
  refine ⟨⟨configured_start, configured_Init, configured_Terminate⟩, ?_⟩
  intro fuel p begin end_ f schedule chunkSize hc hcs hend hfuel
  obtain ⟨o, w, hpf, hoc, hnt, hcalls, hrun, hw⟩ :=
    Parallel_for_ids fuel p begin end_ f schedule chunkSize hc hcs hend hfuel
  have hpos := NumThreads_configured p hc
  have hlt : ∀ t, t ∈ runners o → t < NumThreads p := by
    intro t ht
    rw [hrun, List.mem_range] at ht
    omega
  refine ⟨o, w, hpf, hoc, hnt, ?_, hrun, hw, hlt, ?_, ?_⟩
  · intro c hmem
    have h0 := hcalls c hmem
    exact ⟨h0, by omega⟩
  · intro job t fuel' l _ ht hl c hmem
    unfold ThreadFunction at hl
    cases hs : job.schedule with
    | STATIC =>
      simp only [hs] at hl
      have := StaticThreadFunction_thread fuel' _ _ _ _ _ t l hl c hmem
      exact ⟨this, by rw [this]; exact hlt t ht⟩
    | DYNAMIC =>
      simp only [hs] at hl
      exact absurd hl (by simp)
  · intro chunks s hs tc htc
    have hlt' := (dyn_claimed_lt chunks w s hs).2 tc htc
    have hmem : tc.1 ∈ runners o := by
      rw [hrun, List.mem_range]
      exact hlt'
    refine ⟨hmem, hlt tc.1 hmem, ?_⟩
    intro fuel' b e cs l hl c hc'
    have := ChunkFunction_thread fuel' b e cs tc.1 tc.2 l hl c hc'
    exact ⟨this, by rw [this]; exact hlt tc.1 hmem⟩

/-- C12 after `Init( THREAD_POOL , 4 )` for `Parallel_for( 0 , 1000 , f , STATIC , 100 )`:
the state is configured and every id with which `_ThreadFunction` is called is below
`NumThreads() = 4`. -/
theorem C12_thread_ids_in_range_witness :
    (Init Pool.start ParallelType.THREAD_POOL 4).configured
    ∧ NumThreads (Init Pool.start ParallelType.THREAD_POOL 4) = 4
    ∧ ∃ o : Outcome,
        Parallel_for 1001 (Init Pool.start ParallelType.THREAD_POOL 4) 0 1000 0
          ScheduleType.STATIC 100 = some o
        ∧ (∀ c, c ∈ o.calls → c.1 = 0 ∧ c.1 < 4)
        ∧ ∀ t, t ∈ runners o → t < 4 := by
  have hc := C12_thread_ids_in_range.1.2.1 Pool.start ParallelType.THREAD_POOL 4 (by decide)
    (by decide)
  have hn : NumThreads (Init Pool.start ParallelType.THREAD_POOL 4) = 4 := by decide
  obtain ⟨o, w, hpf, _, _, hcalls, _, _, hlt, _⟩ :=
    C12_thread_ids_in_range.2 1001 (Init Pool.start ParallelType.THREAD_POOL 4) 0 1000 0
      ScheduleType.STATIC 100 hc (by decide) (by decide) (by decide)
  rw [hn] at hcalls hlt
  exact ⟨hc, hn, o, hpf, hcalls, hlt⟩

/-! ## C17: the counter of remaining tasks -/

/-- The `THREAD_POOL` branch when the guard fails, for any fuel: the job is stored, the
warning is given, and the range is run by the loop of the invoking thread. -/
theorem Parallel_for_pool_guard (fuel : Nat) (p : Pool) (begin end_ f : Nat)
    (schedule : ScheduleType) (chunkSize n : Nat)
    (hp : p._ParallelType = ParallelType.THREAD_POOL) (hth : NumThreads p ≠ 1)
    (hlt : begin < end_) (hge : chunkSize ≤ end_ - begin)
    (hn : chunks (end_ - begin) chunkSize = some n) (hr : p._RemainingTasks ≠ 0) :
    Parallel_for fuel p begin end_ f schedule chunkSize
      = (forLoop (fun i => some [(0, i)]) end_ 1 fuel begin).map fun cs =>
          { Outcome.idle { p with
              _ThreadFunction := some (Job.mk schedule f begin end_ chunkSize n
                (NumThreads p)) } with
            calls := cs, warned := true } := by
  unfold Parallel_for
  rw [if_neg (by omega)]
  simp only [hn, hp]
  rw [if_neg (by simp; omega)]
  simp [SetAtomic, SetAtomic32, hr]

/-- The `THREAD_POOL` branch when the guard succeeds, with the new value of the counter
named `r`. -/
theorem Parallel_for_pool_dispatch_named (fuel : Nat) (p : Pool) (begin end_ f : Nat)
    (schedule : ScheduleType) (chunkSize n : Nat)
    (hp : p._ParallelType = ParallelType.THREAD_POOL) (hth : NumThreads p ≠ 1)
    (hlt : begin < end_) (hge : chunkSize ≤ end_ - begin)
    (hn : chunks (end_ - begin) chunkSize = some n) (hr : p._RemainingTasks = 0) :
    ∃ r, r = (NumThreads p + UINT - 1) % UINT ∧
      Parallel_for fuel p begin end_ f schedule chunkSize
        = some { Outcome.idle { p with
                   _ThreadFunction := some (Job.mk schedule f begin end_ chunkSize n
                     (NumThreads p)),
                   _RemainingTasks := r } with
                 notified := workers p, waited := true } :=
  ⟨_, rfl,
    Parallel_for_pool_dispatch fuel p begin end_ f schedule chunkSize n hp hth hlt hge hn hr⟩

/-- What any call of `Parallel_for` that returns does to the static members: the thread
objects, the strategy and the close flag are kept; either the call does not wait and the
counter is kept, or the guard succeeded on a counter that was `0`, the counter is now
`threads-1`, and the workers were notified. -/
theorem Parallel_for_frame (fuel : Nat) (p : Pool) (begin end_ f : Nat)
    (schedule : ScheduleType) (chunkSize : Nat) (o : Outcome)
    (h : Parallel_for fuel p begin end_ f schedule chunkSize = some o) :
    o.pool._Threads = p._Threads ∧ o.pool._ParallelType = p._ParallelType
    ∧ o.pool._Close = p._Close
    ∧ ((o.waited = false ∧ o.pool._RemainingTasks = p._RemainingTasks)
      ∨ (o.waited = true ∧ p._ParallelType = ParallelType.THREAD_POOL
          ∧ p._RemainingTasks = 0
          ∧ o.pool._RemainingTasks = (NumThreads p + UINT - 1) % UINT
          ∧ o.notified = workers p)) := by
  by_cases hle : begin ≥ end_
  · unfold Parallel_for at h
    rw [if_pos hle] at h
    simp only [Option.some.injEq] at h
    subst h
    exact ⟨rfl, rfl, rfl, Or.inl ⟨rfl, rfl⟩⟩
  · have hlt : begin < end_ := by omega
    cases hn : chunks (end_ - begin) chunkSize with
    | none =>
      unfold Parallel_for at h
      rw [if_neg hle] at h
      simp only [hn] at h
      exact absurd h (by simp)
    | some n =>
      by_cases hshort : end_ - begin < chunkSize ∨ p._ParallelType = ParallelType.NONE
          ∨ NumThreads p = 1
      · unfold Parallel_for at h
        rw [if_neg hle] at h
        simp only [hn] at h
        rw [if_pos hshort, Option.map_eq_some'] at h
        obtain ⟨cs, _, rfl⟩ := h
        exact ⟨rfl, rfl, rfl, Or.inl ⟨rfl, rfl⟩⟩
      · have hge : chunkSize ≤ end_ - begin := by omega
        have hth : NumThreads p ≠ 1 := fun e => hshort (Or.inr (Or.inr e))
        by_cases hA : p._ParallelType = ParallelType.ASYNC
        · rw [Parallel_for_async fuel p begin end_ f schedule chunkSize n hA hth hlt hge hn] at h
          simp only [Option.some.injEq] at h
          subst h
          dsimp only [Outcome.idle]
          exact ⟨rfl, rfl, rfl, Or.inl ⟨rfl, rfl⟩⟩
        · have hP : p._ParallelType = ParallelType.THREAD_POOL := by
            cases hT : p._ParallelType with
            | THREAD_POOL => rfl
            | ASYNC => exact absurd hT hA
            | NONE => exact absurd (Or.inr (Or.inl hT)) hshort
          by_cases hr : p._RemainingTasks = 0
          · obtain ⟨r, hrdef, hd⟩ := Parallel_for_pool_dispatch_named fuel p begin end_ f
              schedule chunkSize n hP hth hlt hge hn hr
            rw [hd] at h
            cases h
            rw [← hrdef]
            exact ⟨rfl, rfl, rfl, Or.inr ⟨rfl, hP, hr, rfl, rfl⟩⟩
          · rw [Parallel_for_pool_guard fuel p begin end_ f schedule chunkSize n hP hth hlt
              hge hn hr, Option.map_eq_some'] at h
            obtain ⟨cs, _, rfl⟩ := h
            dsimp only [Outcome.idle]
            exact ⟨rfl, rfl, rfl, Or.inl ⟨rfl, rfl⟩⟩

/-- `threads - 1` in `unsigned int` arithmetic, for `1 ≤ threads`. -/
theorem pred_mod_UINT (n : Nat) (h1 : 1 ≤ n) (h2 : n < UINT) :
    (n + UINT - 1) % UINT = n - 1 := by
  have : n + UINT - 1 = (n - 1) + UINT := by omega
  rw [this, Nat.add_mod_right, Nat.mod_eq_of_lt (by omega)]

/-- The invariant holds right after `Init( THREAD_POOL , n )`. -/
theorem PoolInv_init (p0 : Pool) (n : Nat) (h1 : 1 ≤ n) (h2 : n < UINT) :
    PoolInv n ⟨Init p0 ParallelType.THREAD_POOL n, []⟩ := by
  have hlen := length_Threads_Init p0 ParallelType.THREAD_POOL n
  rw [pred_mod_UINT n h1 h2] at hlen
  have hc := (configured_Init p0 ParallelType.THREAD_POOL n h1 h2).2
  have htype : (Init p0 ParallelType.THREAD_POOL n)._ParallelType = ParallelType.THREAD_POOL := by
    unfold Init
    simp
  have hrem : (Init p0 ParallelType.THREAD_POOL n)._RemainingTasks = 0 := by
    unfold Init
    simp
  refine ⟨htype, ?_, hrem, Nat.zero_le _⟩
  have := hc htype
  rw [hlen] at this
  exact this

/-- In a state of the invariant `NumThreads()` is `n`. -/
theorem NumThreads_PoolInv (n : Nat) (s : PoolRun) (h1 : 1 ≤ n) (h2 : n < UINT)
    (h : PoolInv n s) : NumThreads s.pool = n := by
  have e1 : (n - 1) % UINT = n - 1 := Nat.mod_eq_of_lt (by omega)
  have e2 : n - 1 + 1 = n := by omega
  unfold NumThreads
  rw [h.2.1, List.length_map, List.length_range, e1, e2, Nat.mod_eq_of_lt h2]

/-- In a state of the invariant the workers are `0, ..., n-2`. -/
theorem workers_PoolInv (n : Nat) (s : PoolRun) (h : PoolInv n s) :
    workers s.pool = List.range (n - 1) := by
  unfold workers
  rw [h.2.1, List.filterMap_map]
  simp

/-- Every call of `Parallel_for` keeps the invariant. -/
theorem PoolInv_call (n : Nat) (h1 : 1 ≤ n) (h2 : n < UINT) (s : PoolRun)
    (fuel begin end_ f : Nat) (schedule : ScheduleType) (chunkSize : Nat) (o : Outcome)
    (hinv : PoolInv n s)
    (hcall : Parallel_for fuel s.pool begin end_ f schedule chunkSize = some o) :
    PoolInv n ⟨o.pool, if o.waited then
        s.running ++ o.notified.filter (fun t => t ∉ s.running) else s.running⟩ := by
  obtain ⟨hT, hP, _, hcase⟩ :=
    Parallel_for_frame fuel s.pool begin end_ f schedule chunkSize o hcall
  obtain ⟨htype, hthreads, hrem, hle⟩ := hinv
  rcases hcase with ⟨hw, hr⟩ | ⟨hw, _, hr0, hr, hnot⟩
  · refine ⟨hP.trans htype, hT.trans hthreads, ?_, ?_⟩
    · show o.pool._RemainingTasks = _
      rw [hw, hr, hrem]
      rfl
    · rw [hw]
      exact hle
  · have hempty : s.running = [] := by
      rw [hr0] at hrem
      exact List.length_eq_zero.mp hrem.symm
    have hnum := NumThreads_PoolInv n s h1 h2 ⟨htype, hthreads, hrem, hle⟩
    have hwork := workers_PoolInv n s ⟨htype, hthreads, hrem, hle⟩
    have hrun : (if o.waited then s.running ++ o.notified.filter (fun t => t ∉ s.running)
        else s.running) = List.range (n - 1) := by
      rw [hw, hempty, hnot, hwork]
      simp
    refine ⟨hP.trans htype, hT.trans hthreads, ?_, ?_⟩
    · show o.pool._RemainingTasks = _
      rw [hrun, hr, hnum, pred_mod_UINT n h1 h2, List.length_range]
    · rw [hrun, List.length_range]

/-- A finishing worker leaves the pool type alone. -/
theorem workerFinish_type (p : Pool) : (workerFinish p)._ParallelType = p._ParallelType := by
  cases p
  rfl

/-- A finishing worker leaves the worker list alone. -/
theorem workerFinish_threads (p : Pool) : (workerFinish p)._Threads = p._Threads := by
  cases p
  rfl

/-- A finishing worker decrements the counter in `unsigned int` arithmetic. -/
theorem workerFinish_rem (p : Pool) :
    (workerFinish p)._RemainingTasks = (p._RemainingTasks + UINT - 1) % UINT := rfl

/-- A worker that finishes its share keeps the invariant; the counter is not `0` before
and is one less after. -/
theorem PoolInv_finish (n : Nat) (h2 : n < UINT) (s : PoolRun) (t : Nat)
    (hinv : PoolInv n s) (ht : t ∈ s.running) :
    1 ≤ s.pool._RemainingTasks
    ∧ (workerFinish s.pool)._RemainingTasks = s.pool._RemainingTasks - 1
    ∧ PoolInv n ⟨workerFinish s.pool, s.running.erase t⟩ := by
  obtain ⟨htype, hthreads, hrem, hle⟩ := hinv
  have hpos : 1 ≤ s.running.length := List.length_pos_of_mem ht
  have hdec : (workerFinish s.pool)._RemainingTasks = s.pool._RemainingTasks - 1 := by
    rw [workerFinish_rem]
    exact pred_mod_UINT _ (by omega) (by omega)
  have hlen := List.length_erase_of_mem ht
  have h3 : (workerFinish s.pool)._RemainingTasks = (s.running.erase t).length := by
    rw [hdec, hlen, hrem]
  have h4 : (s.running.erase t).length ≤ n - 1 := by omega
  have h5 := (workerFinish_type s.pool).trans htype
  have h6 := (workerFinish_threads s.pool).trans hthreads
  exact ⟨by omega, hdec, h5, h6, h3, h4⟩

/-- The invariant holds in every state of the pool started by `Init( THREAD_POOL , n )`. -/
theorem PoolInv_reachable (p0 : Pool) (n : Nat) (h1 : 1 ≤ n) (h2 : n < UINT) (s : PoolRun)
    (hs : PoolReachable p0 n s) : PoolInv n s := by
  induction hs with
  | init => exact PoolInv_init p0 n h1 h2
  | call s fuel begin end_ f schedule chunkSize o _ hcall ih =>
    exact PoolInv_call n h1 h2 s fuel begin end_ f schedule chunkSize o ih hcall
  | finish s t _ ht ih => exact (PoolInv_finish n h2 s t ih ht).2.2


/-! ## C17: the invariant of the counter -/

/-- C17 (confirmed).  In the pool started by `Init( THREAD_POOL , n )` with
`2 ≤ n < 2^32`, whose steps are the calls of `Parallel_for` (guard success or guard
failure) and a running worker finishing its share with `_RemainingTasks--`, every
reachable state has `_RemainingTasks` equal to the number of workers still running the
current job, and at most `n-1`.  So a finishing worker never decrements the counter at
`0` and leaves it one less; a dispatch whose guard succeeds starts from the counter `0`
with no worker running, sets the counter to `n-1` and wakes the `n-1` workers
`0, ..., n-2`; and while a worker is running the counter is at least `1` and no dispatch
passes the guard. -/
theorem C17_remaining_tasks_invariant (p0 : Pool) (n : Nat) (hn : 2 ≤ n) (hn2 : n < UINT)
    (s : PoolRun) (hs : PoolReachable p0 n s) :
    s.pool._RemainingTasks = s.running.length
    ∧ s.pool._RemainingTasks ≤ n - 1
    ∧ (∀ t, t ∈ s.running →
        1 ≤ s.pool._RemainingTasks
        ∧ (workerFinish s.pool)._RemainingTasks = s.pool._RemainingTasks - 1)
    ∧ (∀ fuel begin end_ f schedule chunkSize o,
        Parallel_for fuel s.pool begin end_ f schedule chunkSize = some o →
        o.waited = true →
        s.pool._RemainingTasks = 0 ∧ s.running = []
        ∧ o.pool._RemainingTasks = n - 1 ∧ o.notified = List.range (n - 1))
    ∧ (s.running ≠ [] →
        1 ≤ s.pool._RemainingTasks
        ∧ ∀ fuel begin end_ f schedule chunkSize o,
            Parallel_for fuel s.pool begin end_ f schedule chunkSize = some o →
            o.waited = false) := by
  have hinv := PoolInv_reachable p0 n (by omega) hn2 s hs
  have hguard : ∀ fuel begin end_ f schedule chunkSize o,
      Parallel_for fuel s.pool begin end_ f schedule chunkSize = some o →
      o.waited = true →
      s.pool._RemainingTasks = 0 ∧ s.running = []
      ∧ o.pool._RemainingTasks = n - 1 ∧ o.notified = List.range (n - 1) := by
    intro fuel begin end_ f schedule chunkSize o hcall hw
    obtain ⟨_, _, _, hcase⟩ :=
      Parallel_for_frame fuel s.pool begin end_ f schedule chunkSize o hcall
    rcases hcase with ⟨hw2, _⟩ | ⟨_, _, hr0, hr, hnot⟩
    · rw [hw2] at hw
      exact absurd hw (by decide)
    · have hempty : s.running = [] := by
        have hrem := hinv.2.2.1
        rw [hr0] at hrem
        exact List.length_eq_zero.mp hrem.symm
      refine ⟨hr0, hempty, ?_, ?_⟩
      · rw [hr, NumThreads_PoolInv n s (by omega) hn2 hinv,
          pred_mod_UINT n (by omega) hn2]
      · rw [hnot, workers_PoolInv n s hinv]
  refine ⟨hinv.2.2.1, ?_, ?_, hguard, ?_⟩
  · rw [hinv.2.2.1]
    exact hinv.2.2.2
  · intro t ht
    exact ⟨(PoolInv_finish n hn2 s t hinv ht).1, (PoolInv_finish n hn2 s t hinv ht).2.1⟩
  · intro hne
    have hpos : 1 ≤ s.running.length := by
      cases hrun : s.running with
      | nil => exact absurd hrun hne
      | cons a l => simp
    refine ⟨by rw [hinv.2.2.1]; exact hpos, ?_⟩
    intro fuel begin end_ f schedule chunkSize o hcall
    cases hw : o.waited with
    | false => rfl
    | true =>
      have h0 := (hguard fuel begin end_ f schedule chunkSize o hcall hw).2.1
      exact absurd h0 hne


/-- The theorem of C17 at the pool of `Init( THREAD_POOL , 4 )` after the dispatch of
`Parallel_for( 0 , 1000 , f , STATIC , 100 )`: the state is reachable, the workers
`0, 1, 2` are running and the counter is `3`. -/
theorem C17_remaining_tasks_invariant_witness :
    ∃ s : PoolRun, PoolReachable Pool.start 4 s
      ∧ s.running = [0, 1, 2]
      ∧ s.pool._RemainingTasks = s.running.length
      ∧ s.pool._RemainingTasks ≤ 4 - 1 := by
  have hn : chunks (1000 - 0) 100 = some ((1000 - 0 + 100 - 1) / 100) := by decide
  have hcall := Parallel_for_pool_dispatch 0 (Init Pool.start ParallelType.THREAD_POOL 4)
    0 1000 0 ScheduleType.STATIC 100 _ (by decide) (by decide) (by decide) (by decide) hn
    (by decide)
  have hreach := PoolReachable.call (PoolRun.mk (Init Pool.start ParallelType.THREAD_POOL 4) [])
    0 0 1000 0 ScheduleType.STATIC 100 _ PoolReachable.init hcall
  have h := C17_remaining_tasks_invariant Pool.start 4 (by decide) (by decide) _ hreach
  exact ⟨_, hreach, by decide, h.1, h.2.1⟩

end ThreadPool
